import Mathlib

/-!
Verification development for the ulvestein ray-casting engine.

The Rust source stores all geometry in `f32`.  The embedding models a float
value as an exact rational extended with the three IEEE special shapes that
the traversal code can actually produce from finite inputs: the two
infinities (from division by zero in the DDA time computation for
axis-aligned rays) and NaN (from `0/0` and `0 * inf`).  Idealizations,
stated once here and assumed throughout: arithmetic on finite values is
exact (no rounding), zero is unsigned (a literal `0.0` float is treated as
positive, `-0.0` inputs are not modelled), NaN carries no sign or payload,
and the `i32` grid indices are unbounded integers (the Rust `as i32`
saturating float-to-int cast is modelled exactly, but `gx ± 1` never
wraps).  `f32::hypot` is irrational in general; the one place the traversal
consumes it (`... / dist.norm() >= 0.`) only uses the sign of the quotient,
which is computed exactly from the sign class of the norm.
-/

/-- A model of an `f32` value: an exact rational, one of the two
infinities, or NaN. -/
inductive FVal where
  | nan : FVal
  | ninf : FVal
  | fin : ℚ → FVal
  | pinf : FVal
deriving DecidableEq

/-- IEEE negation. -/
def FVal.neg : FVal → FVal
  | nan => nan
  | ninf => pinf
  | pinf => ninf
  | fin q => fin (-q)

/-- IEEE addition (with unsigned zero). -/
def FVal.add : FVal → FVal → FVal
  | nan, _ => nan
  | _, nan => nan
  | pinf, ninf => nan
  | ninf, pinf => nan
  | pinf, _ => pinf
  | _, pinf => pinf
  | ninf, _ => ninf
  | _, ninf => ninf
  | fin a, fin b => fin (a + b)

/-- IEEE subtraction, as in the Rust source a `sub` is `add` of the negation
componentwise; on these shapes `a - b` and `a + (-b)` agree exactly. -/
def FVal.sub (a b : FVal) : FVal := a.add b.neg

/-- IEEE multiplication (with unsigned zero: `inf * 0 = NaN`). -/
def FVal.mul : FVal → FVal → FVal
  | nan, _ => nan
  | _, nan => nan
  | pinf, pinf => pinf
  | pinf, ninf => ninf
  | ninf, pinf => ninf
  | ninf, ninf => pinf
  | pinf, fin q => if 0 < q then pinf else if q < 0 then ninf else nan
  | fin q, pinf => if 0 < q then pinf else if q < 0 then ninf else nan
  | ninf, fin q => if 0 < q then ninf else if q < 0 then pinf else nan
  | fin q, ninf => if 0 < q then ninf else if q < 0 then pinf else nan
  | fin a, fin b => fin (a * b)

/-- IEEE division with unsigned zero: a nonzero finite value divided by zero
is the infinity of the numerator sign, `0/0` is NaN. -/
def FVal.div : FVal → FVal → FVal
  | nan, _ => nan
  | _, nan => nan
  | pinf, pinf => nan
  | pinf, ninf => nan
  | ninf, pinf => nan
  | ninf, ninf => nan
  | pinf, fin q => if 0 ≤ q then pinf else ninf
  | ninf, fin q => if 0 ≤ q then ninf else pinf
  | fin _, pinf => fin 0
  | fin _, ninf => fin 0
  | fin a, fin b =>
    if b = 0 then (if 0 < a then pinf else if a < 0 then ninf else nan)
    else fin (a / b)

/-- IEEE strict less-than: any comparison with NaN is false. -/
def FVal.flt : FVal → FVal → Bool
  | nan, _ => false
  | _, nan => false
  | ninf, ninf => false
  | ninf, _ => true
  | _, ninf => false
  | pinf, _ => false
  | _, pinf => true
  | fin a, fin b => decide (a < b)

/-- The comparison `x >= 0.` on a float: false for NaN. -/
def FVal.fge0 : FVal → Bool
  | pinf => true
  | fin q => decide (0 ≤ q)
  | _ => false

/-- Rust `f32::is_sign_negative` under the unsigned-zero idealization
(`0.0` counts as positive; NaN counts as positive). -/
def FVal.isSignNegative : FVal → Bool
  | ninf => true
  | fin q => decide (q < 0)
  | _ => false

/-- Rust `f32::is_sign_positive`. -/
def FVal.isSignPositive (a : FVal) : Bool := !a.isSignNegative

/-- Rust `f32::abs`. -/
def FVal.fabs : FVal → FVal
  | nan => nan
  | ninf => pinf
  | pinf => pinf
  | fin q => fin |q|

/-- Truncation toward zero of a rational, Rust `f32::trunc`. -/
def ratTrunc (q : ℚ) : ℤ := if 0 ≤ q then ⌊q⌋ else ⌈q⌉

/-- Rust `f32::fract` (`x - x.trunc()`); NaN for the non-finite shapes. -/
def FVal.ffract : FVal → FVal
  | fin q => fin (q - ratTrunc q)
  | _ => nan

/-- The test `x.fract() == 0.`; false for NaN and the infinities because a
NaN comparison is always false. -/
def FVal.fractIsZero : FVal → Bool
  | fin q => decide (q.den = 1)
  | _ => false

/-- Rust `x.floor() as i32`: the float-to-int cast saturates at the `i32`
range and maps NaN to zero. -/
def FVal.floorI32 : FVal → ℤ
  | nan => 0
  | ninf => -(2 ^ 31)
  | pinf => 2 ^ 31 - 1
  | fin q => max (-(2 ^ 31)) (min (2 ^ 31 - 1) ⌊q⌋)

/-- The 2D vector and point type of src/vec.rs (`Vector2` and `Point2`
share one representation; the Rust operations used by the traversal are
all componentwise). -/
structure Vec2 where
  x : FVal
  y : FVal
deriving DecidableEq

/-- Componentwise addition, `Point2 + Vector2` and `Vector2 + Vector2`. -/
def Vec2.add2 (a b : Vec2) : Vec2 := ⟨a.x.add b.x, a.y.add b.y⟩

/-- Componentwise subtraction, `Point2 - Point2` and `Vector2 - Vector2`. -/
def Vec2.sub2 (a b : Vec2) : Vec2 := ⟨a.x.sub b.x, a.y.sub b.y⟩

/-- `Vector2::dot`. -/
def Vec2.dot2 (a b : Vec2) : FVal := (a.x.mul b.x).add (a.y.mul b.y)

/-- Scalar times vector. -/
def Vec2.smul (s : FVal) (a : Vec2) : Vec2 := ⟨s.mul a.x, s.mul a.y⟩

/-- Both components are finite rationals. -/
def Vec2.isFin : Vec2 → Bool
  | ⟨FVal.fin _, FVal.fin _⟩ => true
  | _ => false

/-- `Vector2::proj`: `self.dot(other) * other * (1/other.dot(other))`, with
the zero-vector fallback when the divisor is not finite. -/
def Vec2.projV (v o : Vec2) : Vec2 :=
  let divisor := (FVal.fin 1).div (o.dot2 o)
  match divisor with
  | FVal.fin d => Vec2.smul (FVal.fin d) (Vec2.smul (v.dot2 o) o)
  | _ => ⟨FVal.fin 0, FVal.fin 0⟩

/-- `Side` from src/map/ray_caster.rs: the grid face through which a ray
entered a cell. -/
inductive Side where
  | Right : Side
  | Down : Side
  | Left : Side
  | Up : Side
deriving DecidableEq

/-- `Side::along_x`. -/
def Side.alongX (xPositive : Bool) : Side := if xPositive then .Left else .Right

/-- `Side::along_y`. -/
def Side.alongY (yPositive : Bool) : Side := if yPositive then .Up else .Down

/-- `Side::from_vec`. -/
def Side.fromVec (dist : Vec2) : Side :=
  if FVal.flt dist.y.fabs dist.x.fabs then Side.alongX dist.x.isSignPositive
  else Side.alongY dist.y.isSignPositive

/-- `Side::flip`. -/
def Side.flip : Side → Side
  | .Right => .Left
  | .Down => .Up
  | .Left => .Right
  | .Up => .Down

/-- `Side::into_unit_vector`. -/
def Side.intoUnitVector : Side → Vec2
  | .Right => ⟨FVal.fin 1, FVal.fin 0⟩
  | .Down => ⟨FVal.fin 0, FVal.fin 1⟩
  | .Left => ⟨FVal.fin (-1), FVal.fin 0⟩
  | .Up => ⟨FVal.fin 0, FVal.fin (-1)⟩

/-- `Direction` from src/map/ray_caster.rs. -/
inductive Dir where
  | Pos : Dir
  | Neg : Dir
deriving DecidableEq

/-- `Direction::new` via `is_sign_negative`. -/
def Dir.new (n : FVal) : Dir := if n.isSignNegative then .Neg else .Pos

/-- `Direction::on_i32`. -/
def Dir.onI32 : Dir → ℤ → ℤ
  | .Pos, n => n + 1
  | .Neg, n => n - 1

/-- `Direction::on` (the `gx as f32` conversion is modelled as exact). -/
def Dir.onF : Dir → ℤ → FVal
  | .Pos, n => FVal.fin ((n : ℚ) + 1)
  | .Neg, n => FVal.fin (n : ℚ)

/-- `CastPointType` from src/map/ray_caster.rs. -/
inductive CPType (M : Type) where
  | Reflection : M → Side → CPType M
  | Pass : M → Side → CPType M
  | Void : Side → CPType M
  | Termination : M → Side → CPType M
  | Destination : CPType M
deriving DecidableEq

/-- `CastPoint`. -/
structure CastPoint (M : Type) where
  point : Vec2
  ty : CPType M
deriving DecidableEq

/-- `CastPoints`. -/
structure CastPoints (M : Type) where
  inner : List (CastPoint M)
  origin : Vec2
  target : Option Vec2
deriving DecidableEq

/-- The fixed inputs of one whole `ray_cast` call tree: material lookup,
the four predicate closures and the `finite` flag (all passed unchanged to
the recursive reflection casts in the source). -/
structure Ctx (M : Type) where
  g : ℤ → ℤ → Option M
  isNode : M → Bool
  isTerm : M → Bool
  isRefl : M → Bool
  isPass : M → Bool
  finite : Bool

/-- The sign class of `dist.norm() = hypot(dist.x, dist.y)`: IEEE `hypot`
is `+inf` if either argument is infinite (even if the other is NaN), NaN if
an argument is NaN, zero iff both components are zero, and a positive
finite value otherwise. -/
inductive NormSignKind where
  | normNan : NormSignKind
  | normZero : NormSignKind
  | normPosFin : NormSignKind
  | normInf : NormSignKind
deriving DecidableEq

/-- Classify the sign of `hypot` without computing the irrational value. -/
def normKind : Vec2 → NormSignKind
  | ⟨FVal.pinf, _⟩ => .normInf
  | ⟨FVal.ninf, _⟩ => .normInf
  | ⟨_, FVal.pinf⟩ => .normInf
  | ⟨_, FVal.ninf⟩ => .normInf
  | ⟨FVal.nan, _⟩ => .normNan
  | ⟨_, FVal.nan⟩ => .normNan
  | ⟨FVal.fin a, FVal.fin b⟩ => if a = 0 ∧ b = 0 then .normZero else .normPosFin

/-- The finite-cast stop test `(cur - dest).dot(dist) / dist.norm() >= 0.`.
Only the sign of the quotient is consumed, so each sign class of the norm
is handled exactly: dividing by a positive finite norm preserves the sign,
a zero norm follows the IEEE `x/0` rule, an infinite norm collapses finite
numerators to zero and infinite or NaN numerators to NaN. -/
def destReached (cur dest dist : Vec2) : Bool :=
  let num := (cur.sub2 dest).dot2 dist
  match normKind dist with
  | .normNan => false
  | .normZero => (num.div (FVal.fin 0)).fge0
  | .normPosFin => num.fge0
  | .normInf => (num.div FVal.pinf).fge0

/-- The initial cell and stepping state of one `ray_cast` invocation:
`floor` of the origin, the per-axis directions, the boundary adjustment for
an origin exactly on a grid line with a negative direction component, and
the initial `side` from `Side::from_vec`. -/
structure InitSt where
  gx : ℤ
  gy : ℤ
  xdir : Dir
  ydir : Dir
  side : Side

/-- Lines 8-24 of src/map/ray_caster.rs. -/
def rcInit (fromP dist : Vec2) : InitSt :=
  let gx0 := fromP.x.floorI32
  let gy0 := fromP.y.floorI32
  let xdir := Dir.new dist.x
  let ydir := Dir.new dist.y
  let gx := if fromP.x.fractIsZero && (xdir == Dir.Neg) then gx0 - 1 else gx0
  let gy := if fromP.y.fractIsZero && (ydir == Dir.Neg) then gy0 - 1 else gy0
  ⟨gx, gy, xdir, ydir, Side.fromVec dist⟩

/-- The result of one DDA corner step (lines 75-95 of the source): the new
current point, the new cell, and the `side` of the crossing. -/
structure StepRes where
  cur : Vec2
  gx : ℤ
  gy : ℤ
  side : Side

/-- One DDA corner step: the time to the next x and y grid lines, advance
along whichever is crossed strictly first, ties (including NaN times) take
the y branch because the source guard is `time.0 < time.1`. -/
def ddaStep (dist cur : Vec2) (gx gy : ℤ) (xdir ydir : Dir) : StepRes :=
  let cornerX := xdir.onF gx
  let cornerY := ydir.onF gy
  let tx := (cornerX.sub cur.x).div dist.x
  let ty := (cornerY.sub cur.y).div dist.y
  if tx.flt ty then
    ⟨⟨cornerX, cur.y.add (tx.mul dist.y)⟩, xdir.onI32 gx, gy, Side.alongX dist.x.isSignPositive⟩
  else
    ⟨⟨cur.x.add (ty.mul dist.x), cornerY⟩, gx, ydir.onI32 gy, Side.alongY dist.y.isSignPositive⟩

/-- Lines 98-107 of the source: a finite cast whose last point is a `Void`
gets an explicit `Destination` appended after the loop. -/
def postFix {M : Type} (finite : Bool) (dest : Vec2) (l : List (CastPoint M)) : List (CastPoint M) :=
  if finite then
    match l.getLast? with
    | some p =>
      match p.ty with
      | CPType.Void _ => l ++ [⟨dest, CPType.Destination⟩]
      | _ => l
    | none => l
  else l

/-- Lines 54-58 of src/map/ray_caster.rs: the reflected direction flips
the axis component matching the hit side. -/
def mirrorDist (dist0 : Vec2) : Side → Vec2
  | Side.Left => ⟨dist0.x.neg, dist0.y⟩
  | Side.Right => ⟨dist0.x.neg, dist0.y⟩
  | Side.Up => ⟨dist0.x, dist0.y.neg⟩
  | Side.Down => ⟨dist0.x, dist0.y.neg⟩

/-- The action one iteration of the `ray_cast` loop takes, in source
order: `brk pts` ends the loop emitting `pts` (the budget check, the
destination check, the two `Void` breaks, and the `Termination` break);
`refl` emits a `Reflection` point and hands over to a recursive cast with
the mirrored direction and the remaining budget; `go` emits the optional
`Pass` point and continues at the stepped state. -/
inductive StepOut (M : Type) where
  | brk : List (CastPoint M) → StepOut M
  | refl : CastPoint M → Vec2 → ℕ → StepOut M
  | go : List (CastPoint M) → Vec2 → ℤ → ℤ → Side → ℕ → StepOut M

/-- The body of the `ray_cast` loop (lines 28-96 of the source), as a pure
case analysis producing the action of this iteration. -/
def loopBody {M : Type} (C : Ctx M) (dest dist : Vec2) (nodeLimit : ℕ) (cur : Vec2)
    (gx gy : ℤ) (xdir ydir : Dir) (side : Side) (doCheck : Bool) (len : ℕ) : StepOut M :=
  if nodeLimit ≤ len then StepOut.brk [] else
  if C.finite && destReached cur dest dist then StepOut.brk [⟨dest, CPType.Destination⟩] else
  if doCheck then
    if cur.x.flt (FVal.fin 0) || cur.y.flt (FVal.fin 0) then
      StepOut.brk [⟨cur, CPType.Void side⟩]
    else
      match C.g gx gy with
      | none => StepOut.brk [⟨cur, CPType.Void side⟩]
      | some m =>
        if C.isNode m then
          if C.isTerm m then StepOut.brk [⟨cur, CPType.Termination m side⟩]
          else if C.isRefl m then
            StepOut.refl ⟨cur, CPType.Reflection m side⟩
              (mirrorDist (if C.finite then dest.sub2 cur else dist) side)
              (nodeLimit - (len + 1))
          else if C.isPass m then
            StepOut.go [⟨cur, CPType.Pass m side⟩] (ddaStep dist cur gx gy xdir ydir).cur
              (ddaStep dist cur gx gy xdir ydir).gx (ddaStep dist cur gx gy xdir ydir).gy
              (ddaStep dist cur gx gy xdir ydir).side (len + 1)
          else StepOut.go [] (ddaStep dist cur gx gy xdir ydir).cur
            (ddaStep dist cur gx gy xdir ydir).gx (ddaStep dist cur gx gy xdir ydir).gy
            (ddaStep dist cur gx gy xdir ydir).side len
        else StepOut.go [] (ddaStep dist cur gx gy xdir ydir).cur
          (ddaStep dist cur gx gy xdir ydir).gx (ddaStep dist cur gx gy xdir ydir).gy
          (ddaStep dist cur gx gy xdir ydir).side len
  else StepOut.go [] (ddaStep dist cur gx gy xdir ydir).cur
    (ddaStep dist cur gx gy xdir ydir).gx (ddaStep dist cur gx gy xdir ydir).gy
    (ddaStep dist cur gx gy xdir ydir).side len

/-- The `ray_cast` loop, fuel-indexed (the Rust loop has no fuel; `none`
means the given fuel was not enough to reach the break the source loop
reaches).  The list returned is the suffix of points this call pushes from
now on; `len` is `points.len()` so far in the current invocation.  A
reflection performs the source's recursive `ray_cast` call inline: fresh
initial state via `rcInit`, a fresh points vector, `skip_first_check`
false, and the post-loop `Void`-to-`Destination` fix of the sub-cast. -/
def rayCastLoop {M : Type} (C : Ctx M) :
    ℕ → Vec2 → Vec2 → ℕ → Vec2 → ℤ → ℤ → Dir → Dir → Side → Bool → ℕ →
    Option (List (CastPoint M))
  | 0, _, _, _, _, _, _, _, _, _, _, _ => none
  | fuel + 1, dest, dist, nodeLimit, cur, gx, gy, xdir, ydir, side, doCheck, len =>
    match loopBody C dest dist nodeLimit cur gx gy xdir ydir side doCheck len with
    | StepOut.brk pts => some pts
    | StepOut.refl p rdist subLimit =>
      let ndest := cur.add2 rdist
      let ist := rcInit cur rdist
      (rayCastLoop C fuel ndest rdist subLimit cur ist.gx ist.gy ist.xdir ist.ydir ist.side true 0).map
        (fun sub => p :: postFix C.finite ndest sub)
    | StepOut.go pts cur2 gx2 gy2 side2 len2 =>
      (rayCastLoop C fuel dest dist nodeLimit cur2 gx2 gy2 xdir ydir side2 true len2).map
        (fun rest => pts ++ rest)

/-- The full list a recursive reflection sub-cast contributes: its loop
output with the post-loop fix applied (this is what `points.extend(cps)`
splices, since iterating `CastPoints` yields `inner`). -/
def rayCastInner {M : Type} (C : Ctx M) (fuel : ℕ) (fromP dist : Vec2) (nodeLimit : ℕ)
    (skipFirst : Bool) : Option (List (CastPoint M)) :=
  let ist := rcInit fromP dist
  let dest := fromP.add2 dist
  (rayCastLoop C fuel dest dist nodeLimit fromP ist.gx ist.gy ist.xdir ist.ydir ist.side (!skipFirst) 0).map
    (postFix C.finite dest)

/-- `ray_cast` (src/map/ray_caster.rs lines 3-114). -/
def rayCast {M : Type} (C : Ctx M) (fuel : ℕ) (fromP dist : Vec2) (nodeLimit : ℕ)
    (skipFirst : Bool) : Option (CastPoints M) :=
  (rayCastInner C fuel fromP dist nodeLimit skipFirst).map
    (fun l => ⟨l, fromP, if C.finite then some (fromP.add2 dist) else none⟩)

/-- `CastPoints::clip`'s scan (src/map/ray_caster.rs lines 124-142): walk
the points, breaking at the first `Reflection`, `Pass` or `Termination`;
`Void` records its side without breaking, `Destination` clears it.  The
scanned point starts at `(NaN, NaN)`. -/
def clipScan {M : Type} : List (CastPoint M) → Vec2 → Option Side → Vec2 × Option Side
  | [], p, s => (p, s)
  | cp :: rest, p, s =>
    match cp.ty with
    | CPType.Reflection _ s2 => (cp.point, some s2)
    | CPType.Pass _ s2 => (cp.point, some s2)
    | CPType.Termination _ s2 => (cp.point, some s2)
    | CPType.Void s2 => clipScan rest cp.point (some s2)
    | CPType.Destination =>
      let _ := p
      let _ := s
      clipScan rest cp.point none

/-- `CastPoints::clip`; `none` models the `expect` panic on an infinite
cast (`target` absent). -/
def CastPoints.clipF {M : Type} (cps : CastPoints M) : Option (Vec2 × Option Side) :=
  match cps.target with
  | none => none
  | some t =>
    let r := clipScan cps.inner ⟨FVal.nan, FVal.nan⟩ none
    some (t.sub2 r.1, r.2)

/-- The per-material property row of src/map.rs. -/
structure PropsR where
  solid : Bool
  transparent : Bool
  reflective : Bool
  door : Bool
deriving DecidableEq

/-- The `Map` of src/map.rs: a row-major material grid, its width, and the
property table.  A material (`Mat`) is its numeric id; id 0 is air.  The
`Mat` helpers `air`, `is_air`, `index` and `from_len` used by src/map.rs
are not present in the included src/map/mat.rs iteration; they are
modelled from the spec: id 0 is reserved for air and a non-air id indexes
the property table at `id - 1`. -/
structure GMap where
  grid : List ℕ
  width : ℤ
  props : List PropsR

/-- Modelled from the spec: `Mat::is_air` (id 0 is air). -/
def matIsAir (id : ℕ) : Bool := id == 0

/-- `Map::props` (src/map.rs lines 170-174): air synthesizes the fixed
default row, a non-air id reads the table at `id - 1`.  The Rust index
panic on an out-of-range id is replaced by the air default; the claims
proved below never depend on the row returned for such an id. -/
def GMap.matProps (m : GMap) (id : ℕ) : PropsR :=
  if matIsAir id then ⟨false, true, false, false⟩
  else m.props.getD (id - 1) ⟨false, true, false, false⟩

/-- Two to the sixty-fourth, the `usize` modulus. -/
def U64 : ℕ := 2 ^ 64

/-- The `i32 as isize as usize` conversion: sign extension then
reinterpretation, i.e. the value modulo `2^64`. -/
def toU64 (x : ℤ) : ℕ := (x % (U64 : ℤ)).toNat

/-- `usize::checked_mul`. -/
def checkedMul (a b : ℕ) : Option ℕ := if a * b < U64 then some (a * b) else none

/-- `usize::checked_add`. -/
def checkedAdd (a b : ℕ) : Option ℕ := if a + b < U64 then some (a + b) else none

/-- `Map::get` (src/map.rs lines 162-169). -/
def GMap.get (m : GMap) (x y : ℤ) : Option ℕ :=
  let ux := toU64 x
  let uy := toU64 y
  let uw := toU64 m.width
  match checkedMul uy uw with
  | none => none
  | some i1 =>
    match checkedAdd i1 ux with
    | none => none
    | some idx => m.grid.get? idx

/-- The predicate set `Map::move_ray_cast` passes to `ray_cast`
(src/map.rs lines 178-185): node and terminator are both `solid`, the
reflector predicate is constantly false, pass-through is `!solid`, and the
cast is finite. -/
def GMap.moveCtx (m : GMap) : Ctx ℕ :=
  ⟨m.get, fun id => (m.matProps id).solid, fun id => (m.matProps id).solid,
    fun _ => false, fun id => !(m.matProps id).solid, true⟩

/-- `Map::move_ray_cast` (src/map.rs lines 177-194): a finite cast with
node budget 8 and `skip_first_check` false, clipped, then projected onto
the wall tangent plus the fixed `PUSH = 0.005` outward offset when a side
is known. -/
def GMap.moveRayCast (m : GMap) (fuel : ℕ) (origP dp : Vec2) : Option Vec2 :=
  match rayCast m.moveCtx fuel origP dp 8 false with
  | none => none
  | some cps =>
    match cps.clipF with
    | none => none
    | some (clip, sideOpt) =>
      match sideOpt with
      | some s =>
        let wallDir := s.flip.intoUnitVector
        let toWall := clip.projV wallDir
        some (toWall.add2 (Vec2.smul (FVal.fin (1 / 200)) wallDir))
      | none => some clip

/-- The movement part of `World::update` (src/world.rs lines 53-65): the
player moves to `position + displacement`, and with clipping enabled the
clip vector returned by `move_ray_cast` is subtracted. -/
def worldUpdatePos (m : GMap) (fuel : ℕ) (clip : Bool) (playerP dp : Vec2) : Option Vec2 :=
  if clip then (m.moveRayCast fuel playerP dp).map (fun c => (playerP.add2 dp).sub2 c)
  else some (playerP.add2 dp)

/-- The predicate set `Map::render_ray_cast` passes to `ray_cast`
(src/map.rs lines 200-208): infinite cast, budget 8, `skip_first_check`
true. -/
def GMap.renderCtx (m : GMap) : Ctx ℕ :=
  ⟨m.get, fun id => (m.matProps id).solid || !(m.matProps id).transparent,
    fun id => !(m.matProps id).transparent, fun id => (m.matProps id).reflective,
    fun id => (m.matProps id).transparent, false⟩

/-- One render record: `(dark, u, (p, dist_vect, last_dist), dist, mat)`. -/
structure RRec where
  dark : Bool
  u : FVal
  p : Vec2
  distVect : Vec2
  lastDist : FVal
  dist : FVal
  mat : ℕ
deriving DecidableEq

/-- The `filter_map` fold of `Map::render_ray_cast` (src/map.rs lines
210-240), parameterized by the (irrational) norm function; `none` models
the `unreachable!()` panic on a `Destination` point. -/
def renderFold (normF : Vec2 → FVal) : List (CastPoint ℕ) → Vec2 → FVal → Option (List RRec)
  | [], _, _ => some []
  | cp :: rest, lastPoint, totalDist =>
    let distVect := cp.point.sub2 lastPoint
    let total2 := totalDist.add (normF distVect)
    match cp.ty with
    | CPType.Void _ => renderFold normF rest cp.point total2
    | CPType.Destination => none
    | CPType.Reflection mt s =>
      (renderFold normF rest cp.point total2).map
        (fun rs => ⟨decide (s = Side.Left ∨ s = Side.Right),
          (match s with
            | Side.Left => cp.point.y.ffract
            | Side.Up => (FVal.fin 1).sub cp.point.x.ffract
            | Side.Right => (FVal.fin 1).sub cp.point.y.ffract
            | Side.Down => cp.point.x.ffract),
          lastPoint, distVect, totalDist, total2, mt⟩ :: rs)
    | CPType.Pass mt s =>
      (renderFold normF rest cp.point total2).map
        (fun rs => ⟨decide (s = Side.Left ∨ s = Side.Right),
          (match s with
            | Side.Left => cp.point.y.ffract
            | Side.Up => (FVal.fin 1).sub cp.point.x.ffract
            | Side.Right => (FVal.fin 1).sub cp.point.y.ffract
            | Side.Down => cp.point.x.ffract),
          lastPoint, distVect, totalDist, total2, mt⟩ :: rs)
    | CPType.Termination mt s =>
      (renderFold normF rest cp.point total2).map
        (fun rs => ⟨decide (s = Side.Left ∨ s = Side.Right),
          (match s with
            | Side.Left => cp.point.y.ffract
            | Side.Up => (FVal.fin 1).sub cp.point.x.ffract
            | Side.Right => (FVal.fin 1).sub cp.point.y.ffract
            | Side.Down => cp.point.x.ffract),
          lastPoint, distVect, totalDist, total2, mt⟩ :: rs)

/-- `Map::render_ray_cast` (src/map.rs lines 200-241): the outer `some` is
fuel sufficiency of the embedded loop, the inner `Option` is `none`
exactly when the `unreachable!()` branch would run. -/
def GMap.renderRayCast (m : GMap) (normF : Vec2 → FVal) (fuel : ℕ) (origP dp : Vec2) :
    Option (Option (List RRec)) :=
  (rayCast m.renderCtx fuel origP dp 8 true).map
    (fun cps => renderFold normF cps.inner origP (FVal.fin 0))

/-- Screen width, src/main.rs line 20. -/
def WIDTH : ℕ := 320

/-- Screen height, src/main.rs line 21. -/
def HEIGHT : ℕ := 240

/-- `coords_to_index` (src/tex.rs lines 154-156); `u32` coordinates never
overflow the `usize` arithmetic, so plain naturals are exact. -/
def coordsToIndex (x y : ℕ) : ℕ := y * WIDTH + x

/-- `index_to_coords` (src/tex.rs lines 147-152). -/
def indexToCoords (i : ℕ) : ℕ × ℕ := (i % WIDTH, i / WIDTH)

/-- `Colour` (rgb, implicit alpha 255). -/
structure ColourR where
  r : ℕ
  g : ℕ
  b : ℕ
deriving DecidableEq

/-- `TColour` (rgba). -/
structure TColourR where
  r : ℕ
  g : ℕ
  b : ℕ
  a : ℕ
deriving DecidableEq

/-- `TColour::rgb`. -/
def TColourR.rgb (c : TColourR) : ColourR := ⟨c.r, c.g, c.b⟩

/-- `u8_frac_mul` (src/tex.rs lines 143-145): the `u16` product of two
bytes never overflows, so the natural-number computation is exact. -/
def u8FracMul (a b : ℕ) : ℕ := a * b / 255

/-- `TColour::on` (src/tex.rs lines 96-108); `none` models the `todo!()`
panic on a destination alpha strictly between 0 and 255. -/
def TColourR.on (self other : TColourR) : Option TColourR :=
  if other.a = 0 ∨ self.a = 255 then some self
  else if other.a = 255 then
    some ⟨u8FracMul self.r self.a + u8FracMul other.r (255 - self.a),
      u8FracMul self.g self.a + u8FracMul other.g (255 - self.a),
      u8FracMul self.b self.a + u8FracMul other.b (255 - self.a), 255⟩
  else none

/-- The `copy_from_slice` into `buffer.get_mut(i*4..i*4+4)`: a write of
four bytes when the range is in bounds, a silent no-op otherwise. -/
def writeBytes4 (buf : List ℕ) (i : ℕ) (b0 b1 b2 b3 : ℕ) : List ℕ :=
  if i * 4 + 4 ≤ buf.length then
    ((((buf.set (i * 4) b0).set (i * 4 + 1) b1).set (i * 4 + 2) b2).set (i * 4 + 3) b3)
  else buf

/-- `Frame::draw_rgb` (src/tex.rs lines 120-125). -/
def drawRgb (buf : List ℕ) (x y : ℕ) (p : ColourR) : List ℕ :=
  writeBytes4 buf (coordsToIndex x y) p.r p.g p.b 255

/-- `buffer.get(i*4..i*4+3)`: the three destination colour bytes when the
range is in bounds. -/
def readBytes3 (buf : List ℕ) (i : ℕ) : Option (ℕ × ℕ × ℕ) :=
  if i * 4 + 3 ≤ buf.length then
    some (buf.getD (i * 4) 0, buf.getD (i * 4 + 1) 0, buf.getD (i * 4 + 2) 0)
  else none

/-- `Frame::draw_rgba` (src/tex.rs lines 126-140); `none` propagates the
`todo!()` panic of `TColour::on`. -/
def drawRgba (buf : List ℕ) (x y : ℕ) (p : TColourR) : Option (List ℕ) :=
  if p.a = 0 then some buf
  else if p.a = 255 then some (drawRgb buf x y p.rgb)
  else
    match readBytes3 buf (coordsToIndex x y) with
    | none => some buf
    | some (o0, o1, o2) =>
      match p.on ⟨o0, o1, o2, 255⟩ with
      | none => none
      | some c => some (drawRgb buf x y c.rgb)

/-- The point type is `Pass` or `Reflection` (a non-breaking emission). -/
def CPType.isPRb {M : Type} : CPType M → Bool
  | .Pass _ _ => true
  | .Reflection _ _ => true
  | _ => false

/-- The point type is `Void`. -/
def CPType.isVoidb {M : Type} : CPType M → Bool
  | .Void _ => true
  | _ => false

/-- The point type is `Destination`. -/
def CPType.isDestb {M : Type} : CPType M → Bool
  | .Destination => true
  | _ => false

/-- The point type is `Termination`. -/
def CPType.isTermb {M : Type} : CPType M → Bool
  | .Termination _ _ => true
  | _ => false

/-- The last point of the list is a `Void`. -/
def lastVoidB {M : Type} (L : List (CastPoint M)) : Bool :=
  match L.getLast? with
  | some p => p.ty.isVoidb
  | none => false

/-- The last point of the list is a `Destination`. -/
def lastDestB {M : Type} (L : List (CastPoint M)) : Bool :=
  match L.getLast? with
  | some p => p.ty.isDestb
  | none => false

/-- Shape of a suffix of points emitted by the cast loop from a moment at
which `acc` points were already emitted in the current invocation: every
element before the last is a `Pass`, a `Reflection`, or a `Void`
immediately followed by a final `Destination`; the last element is a
`Termination`, `Destination` or `Void`, or a `Pass`/`Reflection` emitted
exactly when the node budget is exhausted; an empty suffix is only the
budget break. -/
def suffB {M : Type} (limit : ℕ) : ℕ → List (CastPoint M) → Bool
  | acc, [] => decide (limit ≤ acc)
  | acc, [p] =>
    p.ty.isTermb || p.ty.isDestb || p.ty.isVoidb || (p.ty.isPRb && decide (limit ≤ acc + 1))
  | acc, p :: q :: rest =>
    (p.ty.isPRb && suffB limit (acc + 1) (q :: rest)) ||
      (p.ty.isVoidb && q.ty.isDestb && rest.isEmpty)

/-- Full case analysis of the loop body: exactly one of the source
branches applies, and each records the facts of its guard path. -/
theorem loopBody_cases {M : Type} (C : Ctx M) (dest dist : Vec2) (limit : ℕ) (cur : Vec2)
    (gx gy : ℤ) (xd yd : Dir) (side : Side) (dc : Bool) (len : ℕ) :
    (loopBody C dest dist limit cur gx gy xd yd side dc len = StepOut.brk [] ∧ limit ≤ len) ∨
      (len < limit ∧ C.finite = true ∧
        loopBody C dest dist limit cur gx gy xd yd side dc len =
          StepOut.brk [⟨dest, CPType.Destination⟩]) ∨
      (len < limit ∧ dc = true ∧
        loopBody C dest dist limit cur gx gy xd yd side dc len =
          StepOut.brk [⟨cur, CPType.Void side⟩]) ∨
      (len < limit ∧ dc = true ∧ ∃ m, C.g gx gy = some m ∧ C.isNode m = true ∧
        C.isTerm m = true ∧
        loopBody C dest dist limit cur gx gy xd yd side dc len =
          StepOut.brk [⟨cur, CPType.Termination m side⟩]) ∨
      (len < limit ∧ dc = true ∧ ∃ m, C.g gx gy = some m ∧ C.isNode m = true ∧
        C.isTerm m = false ∧ C.isRefl m = true ∧
        loopBody C dest dist limit cur gx gy xd yd side dc len =
          StepOut.refl ⟨cur, CPType.Reflection m side⟩
            (mirrorDist (if C.finite then dest.sub2 cur else dist) side) (limit - (len + 1))) ∨
      (len < limit ∧ dc = true ∧ ∃ m, C.g gx gy = some m ∧ C.isNode m = true ∧
        C.isTerm m = false ∧ C.isRefl m = false ∧ C.isPass m = true ∧
        loopBody C dest dist limit cur gx gy xd yd side dc len =
          StepOut.go [⟨cur, CPType.Pass m side⟩] (ddaStep dist cur gx gy xd yd).cur
            (ddaStep dist cur gx gy xd yd).gx (ddaStep dist cur gx gy xd yd).gy
            (ddaStep dist cur gx gy xd yd).side (len + 1)) ∨
      (len < limit ∧ (dc = true → ∃ m, C.g gx gy = some m) ∧
        loopBody C dest dist limit cur gx gy xd yd side dc len =
          StepOut.go [] (ddaStep dist cur gx gy xd yd).cur (ddaStep dist cur gx gy xd yd).gx
            (ddaStep dist cur gx gy xd yd).gy (ddaStep dist cur gx gy xd yd).side len) := by
  unfold loopBody
  by_cases h1 : limit ≤ len
  · rw [if_pos h1]
    exact Or.inl ⟨rfl, h1⟩
  rw [if_neg h1]
  by_cases h2 : (C.finite && destReached cur dest dist) = true
  · rw [if_pos h2]
    exact Or.inr (Or.inl ⟨by omega, (Bool.and_eq_true _ _ |>.mp h2).1, rfl⟩)
  rw [if_neg h2]
  cases dc with
  | false =>
    rw [if_neg (by simp)]
    exact Or.inr (Or.inr (Or.inr (Or.inr (Or.inr (Or.inr ⟨by omega, by simp, rfl⟩)))))
  | true =>
    rw [if_pos rfl]
    by_cases h4 : (cur.x.flt (FVal.fin 0) || cur.y.flt (FVal.fin 0)) = true
    · rw [if_pos h4]
      exact Or.inr (Or.inr (Or.inl ⟨by omega, rfl, rfl⟩))
    rw [if_neg h4]
    cases hg : C.g gx gy with
    | none =>
      exact Or.inr (Or.inr (Or.inl ⟨by omega, rfl, rfl⟩))
    | some m =>
      dsimp only
      by_cases h5 : C.isNode m = true
      · rw [if_pos h5]
        by_cases h6 : C.isTerm m = true
        · rw [if_pos h6]
          exact Or.inr (Or.inr (Or.inr (Or.inl ⟨by omega, rfl, m, rfl, h5, h6, rfl⟩)))
        rw [if_neg h6]
        by_cases h7 : C.isRefl m = true
        · rw [if_pos h7]
          exact Or.inr (Or.inr (Or.inr (Or.inr (Or.inl
            ⟨by omega, rfl, m, rfl, h5, Bool.not_eq_true _ |>.mp h6, h7, rfl⟩))))
        rw [if_neg h7]
        by_cases h8 : C.isPass m = true
        · rw [if_pos h8]
          exact Or.inr (Or.inr (Or.inr (Or.inr (Or.inr (Or.inl
            ⟨by omega, rfl, m, rfl, h5, Bool.not_eq_true _ |>.mp h6,
              Bool.not_eq_true _ |>.mp h7, h8, rfl⟩)))))
        rw [if_neg h8]
        exact Or.inr (Or.inr (Or.inr (Or.inr (Or.inr (Or.inr
          ⟨by omega, fun _ => ⟨m, rfl⟩, rfl⟩)))))
      · rw [if_neg h5]
        exact Or.inr (Or.inr (Or.inr (Or.inr (Or.inr (Or.inr
          ⟨by omega, fun _ => ⟨m, rfl⟩, rfl⟩)))))

/-- Prepending a `Pass` or `Reflection` preserves the suffix shape. -/
theorem suffB_cons_PR {M : Type} {limit acc : ℕ} {p : CastPoint M} {L : List (CastPoint M)}
    (hp : p.ty.isPRb = true) (hL : suffB limit (acc + 1) L = true) :
    suffB limit acc (p :: L) = true := by
  cases L with
  | nil =>
    have hL2 : limit ≤ acc + 1 := by simpa [suffB] using hL
    unfold suffB
    rw [hp]
    simp [hL2]
  | cons q rest =>
    unfold suffB
    rw [hp]
    simp [hL]

/-- Relabeling the budget of a sub-cast into the enclosing cast's
accounting. -/
theorem suffB_shift {M : Type} (limit d : ℕ) (hd : d ≤ limit) :
    ∀ (L : List (CastPoint M)) (a : ℕ), suffB (limit - d) a L = true →
      suffB limit (a + d) L = true := by
  intro L
  induction L with
  | nil =>
    intro a h
    simp only [suffB, decide_eq_true_eq] at h ⊢
    omega
  | cons p L2 ih =>
    intro a h
    cases L2 with
    | nil =>
      simp only [suffB, Bool.or_eq_true, Bool.and_eq_true, decide_eq_true_eq, or_assoc] at h ⊢
      rcases h with h | h | h | h
      · exact Or.inl h
      · exact Or.inr (Or.inl h)
      · exact Or.inr (Or.inr (Or.inl h))
      · exact Or.inr (Or.inr (Or.inr ⟨h.1, by omega⟩))
    | cons q rest =>
      simp only [suffB, Bool.or_eq_true, Bool.and_eq_true] at h ⊢
      rcases h with ⟨hp, hrec⟩ | h
      · refine Or.inl ⟨hp, ?_⟩
        have h2 := ih (a + 1) hrec
        have : a + 1 + d = a + d + 1 := by omega
        rw [this] at h2
        exact h2
      · exact Or.inr h

/-- The post-loop fix is the identity on infinite casts. -/
theorem postFix_false {M : Type} (dest : Vec2) (S : List (CastPoint M)) :
    postFix false dest S = S := by
  simp [postFix]

/-- The post-loop fix distributes over a head element when the tail is
nonempty (the last element is in the tail). -/
theorem postFix_cons_cons {M : Type} (dest : Vec2) (p q : CastPoint M)
    (rest : List (CastPoint M)) :
    postFix true dest (p :: q :: rest) = p :: postFix true dest (q :: rest) := by
  unfold postFix
  rw [List.getLast?_cons_cons]
  cases hlast : (q :: rest).getLast? with
  | none => simp at hlast
  | some r =>
    cases hr : r.ty <;> simp [hr]

/-- `lastVoidB` looks only at the tail when it is nonempty. -/
theorem lastVoidB_cons_cons {M : Type} (p q : CastPoint M) (rest : List (CastPoint M)) :
    lastVoidB (p :: q :: rest) = lastVoidB (q :: rest) := by
  unfold lastVoidB
  rw [List.getLast?_cons_cons]

/-- `lastDestB` looks only at the tail when it is nonempty. -/
theorem lastDestB_cons_cons {M : Type} (p q : CastPoint M) (rest : List (CastPoint M)) :
    lastDestB (p :: q :: rest) = lastDestB (q :: rest) := by
  unfold lastDestB
  rw [List.getLast?_cons_cons]

/-- The post-loop fix preserves the suffix shape. -/
theorem postFix_suffB {M : Type} (dest : Vec2) :
    ∀ (S : List (CastPoint M)) (limit a : ℕ), suffB limit a S = true →
      suffB limit a (postFix true dest S) = true := by
  intro S
  induction S with
  | nil => intro limit a h; simpa [postFix] using h
  | cons p S2 ih =>
    intro limit a h
    cases S2 with
    | nil =>
      unfold postFix
      simp only [List.getLast?_singleton]
      cases hty : p.ty <;> simp_all [suffB, CPType.isTermb, CPType.isDestb, CPType.isVoidb,
        CPType.isPRb]
    | cons q rest =>
      rw [postFix_cons_cons]
      simp only [suffB, Bool.or_eq_true, Bool.and_eq_true, and_assoc] at h
      rcases h with ⟨hp, hrec⟩ | ⟨hv, hd, he⟩
      · exact suffB_cons_PR hp (ih limit (a + 1) hrec)
      · have hrest : rest = [] := by
          cases rest with
          | nil => rfl
          | cons r1 r2 => simp [List.isEmpty] at he
        subst hrest
        have hfix : postFix true dest [q] = [q] := by
          unfold postFix
          simp only [List.getLast?_singleton]
          cases hq : q.ty <;> simp_all [CPType.isDestb]
        rw [hfix]
        unfold suffB
        rw [hv, hd]
        simp

/-- After the post-loop fix of a finite cast the list never ends in a
`Void`. -/
theorem postFix_lastVoid {M : Type} (dest : Vec2) (S : List (CastPoint M)) :
    lastVoidB (postFix true dest S) = false := by
  unfold postFix lastVoidB
  cases hlast : S.getLast? with
  | none =>
    have : S = [] := List.getLast?_eq_none_iff.mp hlast
    subst this
    simp
  | some r =>
    cases hr : r.ty <;> simp_all [CPType.isVoidb, List.getLast?_concat]

/-- Length accounting of the post-loop fix: one extra point exactly when
the loop result ended in a `Void`. -/
theorem postFix_length {M : Type} (dest : Vec2) (S : List (CastPoint M)) :
    (postFix true dest S).length = S.length + (if lastVoidB S = true then 1 else 0) := by
  unfold postFix lastVoidB
  cases hlast : S.getLast? with
  | none => simp
  | some r => cases hr : r.ty <;> simp_all [CPType.isVoidb]

/-- Gluing a reflection point and its fixed sub-cast into the enclosing
shape. -/
theorem suffB_refl_glue {M : Type} {limit len : ℕ} (hlt : len < limit) {p : CastPoint M}
    (hp : p.ty.isPRb = true) {S : List (CastPoint M)}
    (hS : suffB (limit - (len + 1)) 0 S = true) {fin : Bool} {nd : Vec2}
    (hfin : fin = true) : suffB limit len (p :: postFix fin nd S) = true := by
  subst hfin
  have h1 := postFix_suffB nd S (limit - (len + 1)) 0 hS
  have h2 := suffB_shift limit (len + 1) (by omega) _ 0 h1
  rw [Nat.zero_add] at h2
  exact suffB_cons_PR hp h2

/-- Shape invariant of the finite-cast loop: any suffix of points the loop
emits from a state with `len` points already pushed has the `suffB`
shape. -/
theorem loop_shape {M : Type} (C : Ctx M) (hf : C.finite = true) :
    ∀ (fuel : ℕ) (dest dist : Vec2) (limit : ℕ) (cur : Vec2) (gx gy : ℤ) (xd yd : Dir)
      (side : Side) (dc : Bool) (len : ℕ) (L : List (CastPoint M)),
      rayCastLoop C fuel dest dist limit cur gx gy xd yd side dc len = some L →
      suffB limit len L = true := by
  intro fuel
  induction fuel with
  | zero =>
    intro dest dist limit cur gx gy xd yd side dc len L h
    exact absurd h (by simp [rayCastLoop])
  | succ f ih =>
    intro dest dist limit cur gx gy xd yd side dc len L h
    rw [rayCastLoop] at h
    rcases loopBody_cases C dest dist limit cur gx gy xd yd side dc len with
      ⟨hb, hbud⟩ | ⟨hlt, hcf, hb⟩ | ⟨hlt, hdc, hb⟩ | ⟨hlt, hdc, m, hg, hn, ht, hb⟩ |
      ⟨hlt, hdc, m, hg, hn, ht, hr, hb⟩ | ⟨hlt, hdc, m, hg, hn, ht, hr, hp, hb⟩ | ⟨hlt, hdc2, hb⟩
    · rw [hb] at h
      obtain rfl : ([] : List (CastPoint M)) = L := Option.some.inj h
      simp [suffB, hbud]
    · rw [hb] at h
      obtain rfl : [(⟨dest, CPType.Destination⟩ : CastPoint M)] = L := Option.some.inj h
      simp [suffB, CPType.isDestb]
    · rw [hb] at h
      obtain rfl : [(⟨cur, CPType.Void side⟩ : CastPoint M)] = L := Option.some.inj h
      simp [suffB, CPType.isVoidb]
    · rw [hb] at h
      obtain rfl : [(⟨cur, CPType.Termination m side⟩ : CastPoint M)] = L := Option.some.inj h
      simp [suffB, CPType.isTermb]
    · rw [hb] at h
      dsimp only at h
      rcases Option.map_eq_some'.mp h with ⟨sub, hsub, hL⟩
      subst hL
      exact suffB_refl_glue hlt (by simp [CPType.isPRb]) (ih _ _ _ _ _ _ _ _ _ _ _ _ hsub) hf
    · rw [hb] at h
      dsimp only at h
      rcases Option.map_eq_some'.mp h with ⟨rest, hrest, hL⟩
      subst hL
      have hrecur := ih _ _ _ _ _ _ _ _ _ _ _ _ hrest
      exact suffB_cons_PR (by simp [CPType.isPRb]) hrecur
    · rw [hb] at h
      dsimp only at h
      rcases Option.map_eq_some'.mp h with ⟨rest, hrest, hL⟩
      subst hL
      simpa using ih _ _ _ _ _ _ _ _ _ _ _ _ hrest

/-- When the loop result does not end in a `Void` the post-loop fix leaves
it alone. -/
theorem postFix_not_void {M : Type} (dest : Vec2) (S : List (CastPoint M))
    (h : lastVoidB S = false) : postFix true dest S = S := by
  unfold postFix
  unfold lastVoidB at h
  cases hlast : S.getLast? with
  | none => simp
  | some r =>
    rw [hlast] at h
    cases hr : r.ty <;> simp_all [CPType.isVoidb]

/-- When the loop result ends in a `Void` the post-loop fix appends a
`Destination`. -/
theorem postFix_void {M : Type} (dest : Vec2) (S : List (CastPoint M))
    (h : lastVoidB S = true) : postFix true dest S = S ++ [⟨dest, CPType.Destination⟩] := by
  unfold postFix
  unfold lastVoidB at h
  cases hlast : S.getLast? with
  | none => rw [hlast] at h; simp at h
  | some r =>
    rw [hlast] at h
    cases hr : r.ty <;> simp_all [CPType.isVoidb]

/-- The last-element test after appending one point. -/
theorem lastVoidB_concat {M : Type} (L : List (CastPoint M)) (p : CastPoint M) :
    lastVoidB (L ++ [p]) = p.ty.isVoidb := by
  unfold lastVoidB
  rw [List.getLast?_concat]

/-- The last-destination test after appending one point. -/
theorem lastDestB_concat {M : Type} (L : List (CastPoint M)) (p : CastPoint M) :
    lastDestB (L ++ [p]) = p.ty.isDestb := by
  unfold lastDestB
  rw [List.getLast?_concat]

/-- The singleton values of the two last-element tests. -/
theorem lastVoidB_singleton {M : Type} (p : CastPoint M) : lastVoidB [p] = p.ty.isVoidb := by
  simp [lastVoidB]

/-- The singleton value of the last-destination test. -/
theorem lastDestB_singleton {M : Type} (p : CastPoint M) : lastDestB [p] = p.ty.isDestb := by
  simp [lastDestB]

/-- Length accounting of the cast loop: the points emitted from a state
with `len` already pushed keep the running total within `limit + 1`, and
within `limit` itself when the result does not end in the appended
`Destination`, when it ends in a `Void`, and always on infinite casts. -/
theorem loop_len {M : Type} (C : Ctx M) :
    ∀ (fuel : ℕ) (dest dist : Vec2) (limit : ℕ) (cur : Vec2) (gx gy : ℤ) (xd yd : Dir)
      (side : Side) (dc : Bool) (len : ℕ) (L : List (CastPoint M)),
      rayCastLoop C fuel dest dist limit cur gx gy xd yd side dc len = some L →
      len ≤ limit →
      (len + L.length ≤ limit + 1 ∧
        (lastVoidB L = true → len + L.length ≤ limit) ∧
        (C.finite = false → len + L.length ≤ limit) ∧
        (lastDestB L = false → len + L.length ≤ limit)) := by
  intro fuel
  induction fuel with
  | zero =>
    intro dest dist limit cur gx gy xd yd side dc len L h
    exact absurd h (by simp [rayCastLoop])
  | succ f ih =>
    intro dest dist limit cur gx gy xd yd side dc len L h hlen
    rw [rayCastLoop] at h
    rcases loopBody_cases C dest dist limit cur gx gy xd yd side dc len with
      ⟨hb, hbud⟩ | ⟨hlt, hcf, hb⟩ | ⟨hlt, hdc, hb⟩ | ⟨hlt, hdc, m, hg, hn, ht, hb⟩ |
      ⟨hlt, hdc, m, hg, hn, ht, hr, hb⟩ | ⟨hlt, hdc, m, hg, hn, ht, hr, hp, hb⟩ | ⟨hlt, hdc2, hb⟩
    · rw [hb] at h
      obtain rfl : ([] : List (CastPoint M)) = L := Option.some.inj h
      refine ⟨by simpa using Nat.le_succ_of_le hlen, ?_, fun _ => by simpa using hlen,
        fun _ => by simpa using hlen⟩
      intro hv
      simp [lastVoidB] at hv
    · rw [hb] at h
      obtain rfl : [(⟨dest, CPType.Destination⟩ : CastPoint M)] = L := Option.some.inj h
      refine ⟨by simp; omega, ?_, ?_, ?_⟩
      · intro hv
        rw [lastVoidB_singleton] at hv
        simp [CPType.isVoidb] at hv
      · intro hff
        rw [hcf] at hff
        exact absurd hff (by simp)
      · intro hd
        rw [lastDestB_singleton] at hd
        simp [CPType.isDestb] at hd
    · rw [hb] at h
      obtain rfl : [(⟨cur, CPType.Void side⟩ : CastPoint M)] = L := Option.some.inj h
      exact ⟨by simp; omega, fun _ => by simp; omega, fun _ => by simp; omega,
        fun _ => by simp; omega⟩
    · rw [hb] at h
      obtain rfl : [(⟨cur, CPType.Termination m side⟩ : CastPoint M)] = L := Option.some.inj h
      exact ⟨by simp; omega, fun _ => by simp; omega, fun _ => by simp; omega,
        fun _ => by simp; omega⟩
    · rw [hb] at h
      dsimp only at h
      rcases Option.map_eq_some'.mp h with ⟨sub, hsub, hL⟩
      subst hL
      rcases ih _ _ _ _ _ _ _ _ _ _ _ _ hsub (by omega) with ⟨hA, hB, hC, hD⟩
      rw [Nat.zero_add] at hA hB hC hD
      cases hcf : C.finite with
      | false =>
        rw [postFix_false]
        have hsK := hC hcf
        refine ⟨by simp; omega, fun _ => by simp; omega, fun _ => by simp; omega,
          fun _ => by simp; omega⟩
      | true =>
        cases hlv : lastVoidB sub with
        | true =>
          rw [postFix_void _ _ hlv, ← List.cons_append]
          have hsK := hB hlv
          refine ⟨?_, ?_, ?_, ?_⟩
          · simp; omega
          · intro hv
            rw [lastVoidB_concat] at hv
            simp [CPType.isVoidb] at hv
          · intro hff; exact absurd hff (by simp)
          · intro hd
            rw [lastDestB_concat] at hd
            simp [CPType.isDestb] at hd
        | false =>
          rw [postFix_not_void _ _ hlv]
          cases sub with
          | nil =>
            refine ⟨by simp; omega, ?_, ?_, fun _ => by simp; omega⟩
            · intro hv
              rw [lastVoidB_singleton] at hv
              simp [CPType.isVoidb] at hv
            · intro hff; exact absurd hff (by simp)
          | cons s0 srest =>
            refine ⟨by simp at hA ⊢; omega, ?_, ?_, ?_⟩
            · intro hv
              rw [lastVoidB_cons_cons] at hv
              rw [hv] at hlv
              exact absurd hlv (by simp)
            · intro hff; exact absurd hff (by simp)
            · intro hd
              rw [lastDestB_cons_cons] at hd
              have := hD hd
              simp at this ⊢
              omega
    · rw [hb] at h
      dsimp only at h
      rcases Option.map_eq_some'.mp h with ⟨rest, hrest, hL⟩
      subst hL
      rcases ih _ _ _ _ _ _ _ _ _ _ _ _ hrest (by omega) with ⟨hA, hB, hC, hD⟩
      cases rest with
      | nil =>
        refine ⟨by simp; omega, ?_, fun hff => by have := hC hff; simp at this ⊢; omega, ?_⟩
        · intro hv
          simp only [List.singleton_append] at hv
          rw [lastVoidB_singleton] at hv
          simp [CPType.isVoidb] at hv
        · intro hd
          simp at hA ⊢
          omega
      | cons r0 rrest =>
        refine ⟨by simp at hA ⊢; omega, ?_, ?_, ?_⟩
        · intro hv
          simp only [List.singleton_append] at hv
          rw [lastVoidB_cons_cons] at hv
          have := hB hv
          simp at this ⊢
          omega
        · intro hff
          have := hC hff
          simp at this ⊢
          omega
        · intro hd
          simp only [List.singleton_append] at hd
          rw [lastDestB_cons_cons] at hd
          have := hD hd
          simp at this ⊢
          omega
    · rw [hb] at h
      dsimp only at h
      rcases Option.map_eq_some'.mp h with ⟨rest, hrest, hL⟩
      subst hL
      rcases ih _ _ _ _ _ _ _ _ _ _ _ _ hrest (by omega) with ⟨hA, hB, hC, hD⟩
      simpa using ⟨hA, hB, hC, hD⟩

/-- On infinite casts the loop never emits a `Destination` point: both
sites that construct one are guarded by the `finite` flag, which is passed
unchanged to recursive reflection casts. -/
theorem loop_noDest {M : Type} (C : Ctx M) (hf : C.finite = false) :
    ∀ (fuel : ℕ) (dest dist : Vec2) (limit : ℕ) (cur : Vec2) (gx gy : ℤ) (xd yd : Dir)
      (side : Side) (dc : Bool) (len : ℕ) (L : List (CastPoint M)),
      rayCastLoop C fuel dest dist limit cur gx gy xd yd side dc len = some L →
      ∀ p ∈ L, p.ty ≠ CPType.Destination := by
  intro fuel
  induction fuel with
  | zero =>
    intro dest dist limit cur gx gy xd yd side dc len L h
    exact absurd h (by simp [rayCastLoop])
  | succ f ih =>
    intro dest dist limit cur gx gy xd yd side dc len L h
    rw [rayCastLoop] at h
    rcases loopBody_cases C dest dist limit cur gx gy xd yd side dc len with
      ⟨hb, hbud⟩ | ⟨hlt, hcf, hb⟩ | ⟨hlt, hdc, hb⟩ | ⟨hlt, hdc, m, hg, hn, ht, hb⟩ |
      ⟨hlt, hdc, m, hg, hn, ht, hr, hb⟩ | ⟨hlt, hdc, m, hg, hn, ht, hr, hp, hb⟩ | ⟨hlt, hdc2, hb⟩
    · rw [hb] at h
      obtain rfl : ([] : List (CastPoint M)) = L := Option.some.inj h
      simp
    · rw [hf] at hcf
      exact absurd hcf (by simp)
    · rw [hb] at h
      obtain rfl : [(⟨cur, CPType.Void side⟩ : CastPoint M)] = L := Option.some.inj h
      simp
    · rw [hb] at h
      obtain rfl : [(⟨cur, CPType.Termination m side⟩ : CastPoint M)] = L := Option.some.inj h
      simp
    · rw [hb] at h
      dsimp only at h
      rcases Option.map_eq_some'.mp h with ⟨sub, hsub, hL⟩
      subst hL
      rw [hf, postFix_false]
      intro p hmem
      rcases List.mem_cons.mp hmem with hph | hpt
      · subst hph; simp
      · exact ih _ _ _ _ _ _ _ _ _ _ _ _ hsub p hpt
    · rw [hb] at h
      dsimp only at h
      rcases Option.map_eq_some'.mp h with ⟨rest, hrest, hL⟩
      subst hL
      intro p hmem
      rcases List.mem_cons.mp (by simpa using hmem) with hph | hpt
      · subst hph; simp
      · exact ih _ _ _ _ _ _ _ _ _ _ _ _ hrest p hpt
    · rw [hb] at h
      dsimp only at h
      rcases Option.map_eq_some'.mp h with ⟨rest, hrest, hL⟩
      subst hL
      intro p hmem
      exact ih _ _ _ _ _ _ _ _ _ _ _ _ hrest p (by simpa using hmem)

/-- When the node and terminator predicates agree (the movement cast uses
`solid` for both), the loop emits neither `Pass` nor `Reflection` points,
and every `Destination` point it emits carries the cast destination. -/
theorem loop_move {M : Type} (C : Ctx M) (hnt : ∀ m, C.isNode m = C.isTerm m) :
    ∀ (fuel : ℕ) (dest dist : Vec2) (limit : ℕ) (cur : Vec2) (gx gy : ℤ) (xd yd : Dir)
      (side : Side) (dc : Bool) (len : ℕ) (L : List (CastPoint M)),
      rayCastLoop C fuel dest dist limit cur gx gy xd yd side dc len = some L →
      ∀ p ∈ L, p.ty.isPRb = false ∧ (p.ty.isDestb = true → p.point = dest) := by
  intro fuel
  induction fuel with
  | zero =>
    intro dest dist limit cur gx gy xd yd side dc len L h
    exact absurd h (by simp [rayCastLoop])
  | succ f ih =>
    intro dest dist limit cur gx gy xd yd side dc len L h
    rw [rayCastLoop] at h
    rcases loopBody_cases C dest dist limit cur gx gy xd yd side dc len with
      ⟨hb, hbud⟩ | ⟨hlt, hcf, hb⟩ | ⟨hlt, hdc, hb⟩ | ⟨hlt, hdc, m, hg, hn, ht, hb⟩ |
      ⟨hlt, hdc, m, hg, hn, ht, hr, hb⟩ | ⟨hlt, hdc, m, hg, hn, ht, hr, hp, hb⟩ | ⟨hlt, hdc2, hb⟩
    · rw [hb] at h
      obtain rfl : ([] : List (CastPoint M)) = L := Option.some.inj h
      simp
    · rw [hb] at h
      obtain rfl : [(⟨dest, CPType.Destination⟩ : CastPoint M)] = L := Option.some.inj h
      intro p hmem
      rcases List.mem_singleton.mp hmem with rfl
      exact ⟨by simp [CPType.isPRb], fun _ => rfl⟩
    · rw [hb] at h
      obtain rfl : [(⟨cur, CPType.Void side⟩ : CastPoint M)] = L := Option.some.inj h
      intro p hmem
      rcases List.mem_singleton.mp hmem with rfl
      exact ⟨by simp [CPType.isPRb], fun hd => by simp [CPType.isDestb] at hd⟩
    · rw [hb] at h
      obtain rfl : [(⟨cur, CPType.Termination m side⟩ : CastPoint M)] = L := Option.some.inj h
      intro p hmem
      rcases List.mem_singleton.mp hmem with rfl
      exact ⟨by simp [CPType.isPRb], fun hd => by simp [CPType.isDestb] at hd⟩
    · rw [hnt m] at hn
      rw [hn] at ht
      exact absurd ht (by simp)
    · rw [hnt m] at hn
      rw [hn] at ht
      exact absurd ht (by simp)
    · rw [hb] at h
      dsimp only at h
      rcases Option.map_eq_some'.mp h with ⟨rest, hrest, hL⟩
      subst hL
      intro p hmem
      exact ih _ _ _ _ _ _ _ _ _ _ _ _ hrest p (by simpa using hmem)

/-- An all-void material lookup (every cell is off-grid), finite casts. -/
def voidCtx : Ctx ℕ :=
  ⟨fun _ _ => none, fun _ => false, fun _ => false, fun _ => false, fun _ => false, true⟩

/-- C1 counterexample: the finite cast from `(1/2, 1/2)` along `(1, 0)`
with node budget 8 over the all-void lookup returns the two-point list
`[Void(Left), Destination]`, whose element before the last is a `Void` and
not a `Pass` or `Reflection`, refuting the claim that every element before
the last is a `Pass` or a `Reflection`. -/
theorem c1_counterexample :
    ((rayCast voidCtx 5 ⟨FVal.fin (1 / 2), FVal.fin (1 / 2)⟩ ⟨FVal.fin 1, FVal.fin 0⟩ 8
        false).map (fun c => c.inner.map (fun p => p.ty)) =
      some [CPType.Void Side.Left, CPType.Destination]) ∧
      (CPType.Void (M := ℕ) Side.Left).isPRb = false := by
  constructor
  · norm_num [rayCast, rayCastInner, rayCastLoop, loopBody, rcInit, destReached, normKind,
      ddaStep, postFix, voidCtx, FVal.div, FVal.mul, FVal.add, FVal.sub, FVal.neg, FVal.flt,
      FVal.fge0, FVal.fabs, FVal.isSignPositive, FVal.isSignNegative, FVal.fractIsZero,
      FVal.floorI32, Dir.new, Dir.onF, Dir.onI32, Side.fromVec, Side.alongX, Side.alongY,
      Vec2.add2, Vec2.sub2, Vec2.dot2, Vec2.smul]
  · rfl

/-- C1 (amended): for every finite cast that returns, with node budget at
least 1, the list is non-empty, it does not end in a `Void`, and it has
the `suffB` shape: every element before the last is a `Pass`, a
`Reflection`, or a `Void` immediately followed by the final `Destination`;
the last element is a `Termination` or a `Destination`, or a
`Pass`/`Reflection` emitted exactly when the node budget was exhausted. -/
theorem c1_amended {M : Type} (C : Ctx M) (fuel : ℕ) (fromP dist : Vec2) (limit : ℕ)
    (skip : Bool) (cps : CastPoints M) (hf : C.finite = true) (hl : 1 ≤ limit)
    (h : rayCast C fuel fromP dist limit skip = some cps) :
    cps.inner ≠ [] ∧ suffB limit 0 cps.inner = true ∧ lastVoidB cps.inner = false := by
  unfold rayCast rayCastInner at h
  rcases Option.map_eq_some'.mp h with ⟨l2, h2, hcps⟩
  rcases Option.map_eq_some'.mp h2 with ⟨L, hL, hl2⟩
  subst hl2
  subst hcps
  dsimp only
  rw [hf]
  have hs := loop_shape C hf _ _ _ _ _ _ _ _ _ _ _ _ _ hL
  have hps := postFix_suffB (fromP.add2 dist) L limit 0 hs
  refine ⟨?_, hps, postFix_lastVoid _ _⟩
  intro hnil
  rw [hnil] at hps
  simp [suffB] at hps
  omega

/-- C1 amended witness: the concrete counterexample cast instantiates the
amended claim. -/
theorem c1_amended_witness :
    (rayCast voidCtx 5 ⟨FVal.fin (1 / 2), FVal.fin (1 / 2)⟩ ⟨FVal.fin 1, FVal.fin 0⟩ 8 false =
      some ⟨[⟨⟨FVal.fin (1 / 2), FVal.fin (1 / 2)⟩, CPType.Void Side.Left⟩,
        ⟨⟨FVal.fin (3 / 2), FVal.fin (1 / 2)⟩, CPType.Destination⟩],
        ⟨FVal.fin (1 / 2), FVal.fin (1 / 2)⟩,
        some ⟨FVal.fin (3 / 2), FVal.fin (1 / 2)⟩⟩) ∧
      ([⟨⟨FVal.fin (1 / 2), FVal.fin (1 / 2)⟩, CPType.Void Side.Left⟩,
        (⟨⟨FVal.fin (3 / 2), FVal.fin (1 / 2)⟩, CPType.Destination⟩ : CastPoint ℕ)] ≠ [] ∧
        suffB 8 0 [⟨⟨FVal.fin (1 / 2), FVal.fin (1 / 2)⟩, CPType.Void Side.Left⟩,
          (⟨⟨FVal.fin (3 / 2), FVal.fin (1 / 2)⟩, CPType.Destination⟩ : CastPoint ℕ)] = true ∧
        lastVoidB [⟨⟨FVal.fin (1 / 2), FVal.fin (1 / 2)⟩, CPType.Void Side.Left⟩,
          (⟨⟨FVal.fin (3 / 2), FVal.fin (1 / 2)⟩, CPType.Destination⟩ : CastPoint ℕ)] = false) := by
  have hev : rayCast voidCtx 5 ⟨FVal.fin (1 / 2), FVal.fin (1 / 2)⟩ ⟨FVal.fin 1, FVal.fin 0⟩ 8
      false = some ⟨[⟨⟨FVal.fin (1 / 2), FVal.fin (1 / 2)⟩, CPType.Void Side.Left⟩,
        ⟨⟨FVal.fin (3 / 2), FVal.fin (1 / 2)⟩, CPType.Destination⟩],
        ⟨FVal.fin (1 / 2), FVal.fin (1 / 2)⟩, some ⟨FVal.fin (3 / 2), FVal.fin (1 / 2)⟩⟩ := by
    norm_num [rayCast, rayCastInner, rayCastLoop, loopBody, rcInit, destReached, normKind,
      ddaStep, postFix, voidCtx, FVal.div, FVal.mul, FVal.add, FVal.sub, FVal.neg, FVal.flt,
      FVal.fge0, FVal.fabs, FVal.isSignPositive, FVal.isSignNegative, FVal.fractIsZero,
      FVal.floorI32, Dir.new, Dir.onF, Dir.onI32, Side.fromVec, Side.alongX, Side.alongY,
      Vec2.add2, Vec2.sub2, Vec2.dot2, Vec2.smul]
  exact ⟨hev, c1_amended voidCtx 5 _ _ 8 false _ rfl (by norm_num) hev⟩

/-- C2 counterexample: the finite cast over the all-void lookup with node
budget 1 returns two points (the `Void` break plus the appended
`Destination` anchor), exceeding the budget. -/
theorem c2_counterexample :
    ((rayCast voidCtx 5 ⟨FVal.fin (1 / 2), FVal.fin (1 / 2)⟩ ⟨FVal.fin 1, FVal.fin 0⟩ 1
        false).map (fun c => c.inner.length) = some 2) ∧ 1 < 2 := by
  constructor
  · norm_num [rayCast, rayCastInner, rayCastLoop, loopBody, rcInit, destReached, normKind,
      ddaStep, postFix, voidCtx, FVal.div, FVal.mul, FVal.add, FVal.sub, FVal.neg, FVal.flt,
      FVal.fge0, FVal.fabs, FVal.isSignPositive, FVal.isSignNegative, FVal.fractIsZero,
      FVal.floorI32, Dir.new, Dir.onF, Dir.onI32, Side.fromVec, Side.alongX, Side.alongY,
      Vec2.add2, Vec2.sub2, Vec2.dot2, Vec2.smul]
  · norm_num

/-- C2 (amended): for every finite cast that returns, the total number of
emitted points, summed across all recursive reflection sub-casts, never
exceeds the node budget plus one; the one point of excess can only be the
`Destination` anchor appended after a `Void` exit. -/
theorem c2_amended {M : Type} (C : Ctx M) (fuel : ℕ) (fromP dist : Vec2) (limit : ℕ)
    (skip : Bool) (cps : CastPoints M) (hf : C.finite = true)
    (h : rayCast C fuel fromP dist limit skip = some cps) :
    cps.inner.length ≤ limit + 1 := by
  unfold rayCast rayCastInner at h
  rcases Option.map_eq_some'.mp h with ⟨l2, h2, hcps⟩
  rcases Option.map_eq_some'.mp h2 with ⟨L, hL, hl2⟩
  subst hl2
  subst hcps
  dsimp only
  rw [hf]
  rcases loop_len C _ _ _ _ _ _ _ _ _ _ _ _ _ hL (by omega) with ⟨hA, hB, _, _⟩
  rw [Nat.zero_add] at hA hB
  cases hlv : lastVoidB L with
  | true =>
    rw [postFix_void _ _ hlv]
    have := hB hlv
    simp
    omega
  | false =>
    rw [postFix_not_void _ _ hlv]
    omega

/-- C2 amended witness: the budget-1 counterexample cast instantiates the
amended bound. -/
theorem c2_amended_witness :
    (rayCast voidCtx 5 ⟨FVal.fin (1 / 2), FVal.fin (1 / 2)⟩ ⟨FVal.fin 1, FVal.fin 0⟩ 1 false =
      some ⟨[⟨⟨FVal.fin (1 / 2), FVal.fin (1 / 2)⟩, CPType.Void Side.Left⟩,
        ⟨⟨FVal.fin (3 / 2), FVal.fin (1 / 2)⟩, CPType.Destination⟩],
        ⟨FVal.fin (1 / 2), FVal.fin (1 / 2)⟩,
        some ⟨FVal.fin (3 / 2), FVal.fin (1 / 2)⟩⟩) ∧
      ([⟨⟨FVal.fin (1 / 2), FVal.fin (1 / 2)⟩, CPType.Void Side.Left⟩,
        (⟨⟨FVal.fin (3 / 2), FVal.fin (1 / 2)⟩, CPType.Destination⟩ : CastPoint ℕ)] :
        List (CastPoint ℕ)).length ≤ 1 + 1 := by
  have hev : rayCast voidCtx 5 ⟨FVal.fin (1 / 2), FVal.fin (1 / 2)⟩ ⟨FVal.fin 1, FVal.fin 0⟩ 1
      false = some ⟨[⟨⟨FVal.fin (1 / 2), FVal.fin (1 / 2)⟩, CPType.Void Side.Left⟩,
        ⟨⟨FVal.fin (3 / 2), FVal.fin (1 / 2)⟩, CPType.Destination⟩],
        ⟨FVal.fin (1 / 2), FVal.fin (1 / 2)⟩, some ⟨FVal.fin (3 / 2), FVal.fin (1 / 2)⟩⟩ := by
    norm_num [rayCast, rayCastInner, rayCastLoop, loopBody, rcInit, destReached, normKind,
      ddaStep, postFix, voidCtx, FVal.div, FVal.mul, FVal.add, FVal.sub, FVal.neg, FVal.flt,
      FVal.fge0, FVal.fabs, FVal.isSignPositive, FVal.isSignNegative, FVal.fractIsZero,
      FVal.floorI32, Dir.new, Dir.onF, Dir.onI32, Side.fromVec, Side.alongX, Side.alongY,
      Vec2.add2, Vec2.sub2, Vec2.dot2, Vec2.smul]
  exact ⟨hev, c2_amended voidCtx 5 _ _ 1 false _ rfl hev⟩

/-- The render fold succeeds on any list without a `Destination` point. -/
theorem renderFold_total (normF : Vec2 → FVal) :
    ∀ (L : List (CastPoint ℕ)), (∀ p ∈ L, p.ty ≠ CPType.Destination) →
      ∀ (lp : Vec2) (td : FVal), ∃ rl, renderFold normF L lp td = some rl := by
  intro L
  induction L with
  | nil => intro _ lp td; exact ⟨[], rfl⟩
  | cons cp rest ih =>
    intro hnd lp td
    have hrest : ∀ p ∈ rest, p.ty ≠ CPType.Destination :=
      fun p hp => hnd p (List.mem_cons_of_mem _ hp)
    cases hty : cp.ty with
    | Void s =>
      rcases ih hrest cp.point (td.add (normF (cp.point.sub2 lp))) with ⟨rl, hrl⟩
      unfold renderFold
      rw [hty]
      dsimp only
      rw [hrl]
      exact ⟨rl, rfl⟩
    | Destination => exact absurd hty (hnd cp (List.mem_cons_self _ _))
    | Reflection mt s =>
      rcases ih hrest cp.point (td.add (normF (cp.point.sub2 lp))) with ⟨rl, hrl⟩
      unfold renderFold
      rw [hty]
      dsimp only
      rw [hrl]
      exact ⟨_, rfl⟩
    | Pass mt s =>
      rcases ih hrest cp.point (td.add (normF (cp.point.sub2 lp))) with ⟨rl, hrl⟩
      unfold renderFold
      rw [hty]
      dsimp only
      rw [hrl]
      exact ⟨_, rfl⟩
    | Termination mt s =>
      rcases ih hrest cp.point (td.add (normF (cp.point.sub2 lp))) with ⟨rl, hrl⟩
      unfold renderFold
      rw [hty]
      dsimp only
      rw [hrl]
      exact ⟨_, rfl⟩

/-- C8: an infinite cast never contains a `Destination` point, so the
`unreachable!()` branch of `Map::render_ray_cast` (modelled as the `none`
result of `renderFold`) is never taken: whenever the underlying cast of
`render_ray_cast` returns, the whole render fold returns a record list. -/
theorem c8_no_destination (m : GMap) (normF : Vec2 → FVal) (fuel : ℕ) (origP dp : Vec2)
    (cps : CastPoints ℕ) (h : rayCast m.renderCtx fuel origP dp 8 true = some cps) :
    (∀ p ∈ cps.inner, p.ty ≠ CPType.Destination) ∧
      ∃ rl, m.renderRayCast normF fuel origP dp = some (some rl) := by
  have hnd : ∀ p ∈ cps.inner, p.ty ≠ CPType.Destination := by
    unfold rayCast rayCastInner at h
    rcases Option.map_eq_some'.mp h with ⟨l2, h2, hcps⟩
    rcases Option.map_eq_some'.mp h2 with ⟨L, hL, hl2⟩
    subst hl2
    subst hcps
    dsimp only
    rw [show m.renderCtx.finite = false from rfl, postFix_false]
    exact loop_noDest m.renderCtx rfl _ _ _ _ _ _ _ _ _ _ _ _ _ hL
  rcases renderFold_total normF cps.inner hnd origP (FVal.fin 0) with ⟨rl, hrl⟩
  refine ⟨hnd, rl, ?_⟩
  unfold GMap.renderRayCast
  rw [h]
  simpa using hrl

/-- An empty map: every lookup misses. -/
def mapEmpty : GMap := ⟨[], 0, []⟩

/-- C8 witness: a concrete infinite render cast over the empty map
returns, contains no `Destination`, and the render fold succeeds. -/
theorem c8_witness :
    (rayCast mapEmpty.renderCtx 4 ⟨FVal.fin (1 / 2), FVal.fin (1 / 2)⟩
        ⟨FVal.fin 1, FVal.fin 0⟩ 8 true =
      some ⟨[⟨⟨FVal.fin 1, FVal.fin (1 / 2)⟩, CPType.Void Side.Left⟩],
        ⟨FVal.fin (1 / 2), FVal.fin (1 / 2)⟩, none⟩) ∧
      ((∀ p ∈ (⟨[⟨⟨FVal.fin 1, FVal.fin (1 / 2)⟩, CPType.Void Side.Left⟩],
          ⟨FVal.fin (1 / 2), FVal.fin (1 / 2)⟩, none⟩ : CastPoints ℕ).inner,
          p.ty ≠ CPType.Destination) ∧
        ∃ rl, mapEmpty.renderRayCast (fun _ => FVal.fin 1) 4
          ⟨FVal.fin (1 / 2), FVal.fin (1 / 2)⟩ ⟨FVal.fin 1, FVal.fin 0⟩ = some (some rl)) := by
  have hev : rayCast mapEmpty.renderCtx 4 ⟨FVal.fin (1 / 2), FVal.fin (1 / 2)⟩
      ⟨FVal.fin 1, FVal.fin 0⟩ 8 true =
      some ⟨[⟨⟨FVal.fin 1, FVal.fin (1 / 2)⟩, CPType.Void Side.Left⟩],
        ⟨FVal.fin (1 / 2), FVal.fin (1 / 2)⟩, none⟩ := by
    norm_num [mapEmpty, rayCast, rayCastInner, rayCastLoop, loopBody, rcInit, destReached,
      normKind, ddaStep, postFix, GMap.renderCtx, GMap.get, GMap.matProps, matIsAir, toU64,
      checkedMul, checkedAdd, U64, FVal.div, FVal.mul, FVal.add, FVal.sub, FVal.neg, FVal.flt,
      FVal.fge0, FVal.fabs, FVal.isSignPositive, FVal.isSignNegative, FVal.fractIsZero,
      FVal.floorI32, Dir.new, Dir.onF, Dir.onI32, Side.fromVec, Side.alongX, Side.alongY,
      Vec2.add2, Vec2.sub2, Vec2.dot2, Vec2.smul]
  exact ⟨hev, c8_no_destination mapEmpty (fun _ => FVal.fin 1) 4 _ _ _ hev⟩

/-- A 4-by-4 map whose sixteen cells carry distinct material ids. -/
def mapGrid16 : GMap :=
  ⟨[0, 1, 2, 3, 4, 5, 6, 7, 8, 9, 10, 11, 12, 13, 14, 15], 4, []⟩

/-- C3 counterexample: on the 4-wide map, `get 5 0` is outside the stored
rectangle (x = 5 is at least the width 4), yet the lookup returns the
stored cell of the valid position (1, 1): the linear index wraps onto the
next row instead of returning `None`. -/
theorem c3_counterexample :
    mapGrid16.get 5 0 = some 5 ∧ mapGrid16.get 1 1 = some 5 ∧
      mapGrid16.width ≤ 5 ∧ mapGrid16.get 5 0 ≠ none := by
  refine ⟨by decide, by decide, by decide, by decide⟩

/-- C3 (amended): under the `i32`/`usize` ranges of the source (`width`
positive and at most `2^31`, coordinates in the `i32` range, grid length
at most `2^31`), `Map::get` returns `None` whenever `x < 0`, `y < 0`, or
the linear index `y * width + x` is at least the grid length; but an
`x ≥ width` whose linear index stays inside the grid aliases onto a stored
cell of a different row, as the counterexample shows. -/
theorem c3_amended (m : GMap) (x y : ℤ) (hw : 0 < m.width) (hw2 : m.width ≤ 2 ^ 31)
    (hx1 : -(2 ^ 31) ≤ x) (hx2 : x < 2 ^ 31) (hy1 : -(2 ^ 31) ≤ y) (hy2 : y < 2 ^ 31)
    (hlen : (m.grid.length : ℤ) ≤ 2 ^ 31)
    (hout : x < 0 ∨ y < 0 ∨ (m.grid.length : ℤ) ≤ y * m.width + x) :
    m.get x y = none := by
  unfold GMap.get toU64 checkedMul checkedAdd U64
  dsimp only
  simp only [show ((2 ^ 64 : ℕ) : ℤ) = 2 ^ 64 from by norm_num]
  have hget : ∀ i : ℕ, m.grid.length ≤ i → m.grid.get? i = none := fun i hi =>
    List.get?_eq_none.mpr hi
  have huw : ((m.width : ℤ) % (2 ^ 64 : ℤ)).toNat = m.width.toNat := by
    congr 1
    omega
  have hwn1 : 1 ≤ m.width.toNat := by omega
  have hwn2 : m.width.toNat ≤ 2 ^ 31 := by omega
  have hlenN : m.grid.length ≤ 2 ^ 31 := by exact_mod_cast hlen
  rw [huw]
  rcases lt_or_le y 0 with hyneg | hypos
  · have huy : (y % (2 ^ 64 : ℤ)).toNat = (y + 2 ^ 64).toNat := by
      congr 1
      omega
    have huyb : 2 ^ 64 - 2 ^ 31 ≤ (y + 2 ^ 64).toNat := by omega
    rw [huy]
    by_cases hm : (y + 2 ^ 64).toNat * m.width.toNat < 2 ^ 64
    · have hwone : m.width.toNat = 1 := by
        rcases Nat.lt_or_ge m.width.toNat 2 with h2 | h2
        · omega
        · exfalso
          have : (2 ^ 64 - 2 ^ 31) * 2 ≤ (y + 2 ^ 64).toNat * m.width.toNat :=
            Nat.mul_le_mul huyb h2
          omega
      rw [if_pos hm, hwone, Nat.mul_one]
      dsimp only
      rcases lt_or_le x 0 with hxneg | hxpos
      · have hux : (x % (2 ^ 64 : ℤ)).toNat = (x + 2 ^ 64).toNat := by
          congr 1
          omega
        rw [hux, if_neg (by omega)]
      · have hux : (x % (2 ^ 64 : ℤ)).toNat = x.toNat := by
          congr 1
          omega
        rw [hux]
        by_cases ha : (y + 2 ^ 64).toNat + x.toNat < 2 ^ 64
        · rw [if_pos ha]
          dsimp only
          exact hget _ (by omega)
        · rw [if_neg ha]
    · rw [if_neg hm]
  · have huy : (y % (2 ^ 64 : ℤ)).toNat = y.toNat := by
      congr 1
      omega
    rw [huy]
    have hm : y.toNat * m.width.toNat < 2 ^ 64 := by
      have : y.toNat * m.width.toNat ≤ 2 ^ 31 * 2 ^ 31 :=
        Nat.mul_le_mul (by omega) hwn2
      omega
    rw [if_pos hm]
    dsimp only
    have hprod : y.toNat * m.width.toNat ≤ 2 ^ 62 := by
      have : y.toNat * m.width.toNat ≤ 2 ^ 31 * 2 ^ 31 :=
        Nat.mul_le_mul (by omega) hwn2
      omega
    rcases lt_or_le x 0 with hxneg | hxpos
    · have hux : (x % (2 ^ 64 : ℤ)).toNat = (x + 2 ^ 64).toNat := by
        congr 1
        omega
      rw [hux]
      by_cases ha : y.toNat * m.width.toNat + (x + 2 ^ 64).toNat < 2 ^ 64
      · rw [if_pos ha]
        dsimp only
        exact hget _ (by omega)
      · rw [if_neg ha]
    · have hux : (x % (2 ^ 64 : ℤ)).toNat = x.toNat := by
        congr 1
        omega
      rw [hux]
      have hidx : (m.grid.length : ℤ) ≤ y * m.width + x := by
        rcases hout with h | h | h
        · omega
        · omega
        · exact h
      have hcast2 : ((y.toNat * m.width.toNat + x.toNat : ℕ) : ℤ) = y * m.width + x := by
        push_cast
        rw [Int.toNat_of_nonneg hypos, Int.toNat_of_nonneg hxpos,
          Int.toNat_of_nonneg (by omega : (0 : ℤ) ≤ m.width)]
      have hlenle : m.grid.length ≤ y.toNat * m.width.toNat + x.toNat := by
        have := hidx
        rw [← hcast2] at this
        exact_mod_cast this
      rw [if_pos (by omega)]
      dsimp only
      exact hget _ hlenle

/-- C3 amended witness: the amended contract instantiated at a negative
coordinate on the concrete 4-by-4 map. -/
theorem c3_amended_witness :
    (0 < mapGrid16.width ∧ ((-3 : ℤ) < 0 ∨ (0 : ℤ) < 0 ∨
      (mapGrid16.grid.length : ℤ) ≤ 0 * mapGrid16.width + -3)) ∧
      mapGrid16.get (-3) 0 = none :=
  ⟨⟨by decide, Or.inl (by decide)⟩,
    c3_amended mapGrid16 (-3) 0 (by decide) (by decide) (by decide) (by decide) (by decide)
      (by decide) (by decide) (Or.inl (by decide))⟩

/-- The real frame buffer: `WIDTH * HEIGHT` pixels of four bytes each,
initially zeroed. -/
def frameBuf : List ℕ := List.replicate (320 * 240 * 4) 0

/-- A fully opaque colour takes the overwrite branch of `draw_rgba`. -/
theorem drawRgba_a255 (buf : List ℕ) (x y r g b : ℕ) :
    drawRgba buf x y ⟨r, g, b, 255⟩ = some (drawRgb buf x y ⟨r, g, b⟩) := by
  simp [drawRgba, TColourR.rgb]

/-- The red byte an in-range `draw_rgb` write leaves at the linearized
pixel index. -/
theorem drawRgb_getD (buf : List ℕ) (x y r g b j : ℕ)
    (hin : coordsToIndex x y * 4 + 4 ≤ buf.length) (hj : j = coordsToIndex x y * 4)
    (hjlt : j < buf.length) :
    (drawRgb buf x y ⟨r, g, b⟩).getD j 999 = r := by
  subst hj
  unfold drawRgb writeBytes4
  rw [if_pos hin]
  rw [List.getD_eq_getElem?_getD]
  rw [List.getElem?_set_ne (by omega), List.getElem?_set_ne (by omega),
    List.getElem?_set_ne (by omega)]
  rw [List.getElem?_set_eq_of_lt _ hjlt]
  rfl

/-- C9 counterexample: drawing at pixel (320, 0) — out of bounds, since
`x = WIDTH` — writes through linear index `0 * WIDTH + 320 = 320`, i.e.
onto the in-bounds pixel (0, 1): byte 1280 of the frame changes from 0 to
255, so the out-of-bounds write is not ignored and an in-bounds pixel is
modified. -/
theorem c9_counterexample :
    ((drawRgba frameBuf 320 0 ⟨255, 7, 9, 255⟩).map (fun b => b.getD 1280 999) =
      some 255) ∧ frameBuf.getD 1280 999 = 0 ∧ 320 ≥ WIDTH := by
  have hlen : frameBuf.length = 307200 := by
    unfold frameBuf
    rw [List.length_replicate]
  have hlt : (1280 : ℕ) < frameBuf.length := by omega
  have hidx : coordsToIndex 320 0 * 4 = 1280 := by norm_num [coordsToIndex, WIDTH]
  refine ⟨?_, ?_, by decide⟩
  · rw [drawRgba_a255]
    simp only [Option.map_some']
    rw [drawRgb_getD frameBuf 320 0 255 7 9 1280 (by omega) hidx.symm hlt]
  · rw [List.getD_eq_getElem?_getD, List.getElem?_eq_getElem hlt]
    have : frameBuf[1280] = 0 := List.getElem_replicate _ hlt
    rw [this]
    rfl

/-- C9 (amended): a `draw_rgba` write is silently ignored exactly when its
linearized pixel index `y * WIDTH + x` is at least `WIDTH * HEIGHT` (in
particular for every `y ≥ HEIGHT`): the frame buffer is then returned
unchanged.  An `x ≥ WIDTH` with a small `y` instead aliases onto a later
row, as the counterexample shows. -/
theorem c9_amended (buf : List ℕ) (x y : ℕ) (p : TColourR)
    (hlen : buf.length = WIDTH * HEIGHT * 4) (hout : WIDTH * HEIGHT ≤ y * WIDTH + x) :
    drawRgba buf x y p = some buf := by
  unfold drawRgba drawRgb writeBytes4 readBytes3 coordsToIndex
  unfold WIDTH HEIGHT at *
  split_ifs with h1 h2 h3 h4 <;> first
  | rfl
  | (exfalso; omega)

/-- C9 amended witness: drawing at row `HEIGHT` leaves the frame buffer
unchanged. -/
theorem c9_amended_witness :
    (frameBuf.length = WIDTH * HEIGHT * 4 ∧ WIDTH * HEIGHT ≤ 240 * WIDTH + 0) ∧
      drawRgba frameBuf 0 240 ⟨1, 2, 3, 255⟩ = some frameBuf :=
  ⟨⟨by unfold frameBuf WIDTH HEIGHT; rw [List.length_replicate], by decide⟩,
    c9_amended frameBuf 0 240 ⟨1, 2, 3, 255⟩
      (by unfold frameBuf WIDTH HEIGHT; rw [List.length_replicate]) (by decide)⟩

/-- The blended byte of `u8_frac_mul` sums stays within a byte: no `u8`
overflow is possible in `TColour::on`. -/
theorem u8FracMul_blend_le (a b s : ℕ) (ha : a ≤ 255) (hb : b ≤ 255) (hs : s ≤ 255) :
    u8FracMul a s + u8FracMul b (255 - s) ≤ 255 := by
  unfold u8FracMul
  have h1 : a * s / 255 ≤ s := by
    calc a * s / 255 ≤ 255 * s / 255 := Nat.div_le_div_right (Nat.mul_le_mul_right _ ha)
    _ = s := by omega
  have h2 : b * (255 - s) / 255 ≤ 255 - s := by
    calc b * (255 - s) / 255 ≤ 255 * (255 - s) / 255 :=
      Nat.div_le_div_right (Nat.mul_le_mul_right _ hb)
    _ = 255 - s := by omega
  omega

/-- C10: `Frame::draw_rgba` never panics: the `todo!()` branch of
`TColour::on` is unreachable because the destination pixel read back from
the buffer is reconstructed with alpha 255, and no byte addition
overflows; alpha 0 leaves the buffer unchanged, and every byte of the
result stays within a byte. -/
theorem c10_no_panic (buf : List ℕ) (x y : ℕ) (p : TColourR) (hr : p.r ≤ 255)
    (hg : p.g ≤ 255) (hb : p.b ≤ 255) (ha : p.a ≤ 255) (hbuf : ∀ b ∈ buf, b ≤ 255) :
    ∃ buf2, drawRgba buf x y p = some buf2 ∧ (∀ b ∈ buf2, b ≤ 255) ∧
      (p.a = 0 → buf2 = buf) := by
  have hset : ∀ (l : List ℕ) (i v : ℕ), (∀ b ∈ l, b ≤ 255) → v ≤ 255 →
      ∀ b ∈ l.set i v, b ≤ 255 := by
    intro l i v hl hv b hmem
    rcases List.mem_or_eq_of_mem_set hmem with h | h
    · exact hl b h
    · omega
  have hwrite : ∀ (l : List ℕ) (i b0 b1 b2 b3 : ℕ), (∀ b ∈ l, b ≤ 255) → b0 ≤ 255 →
      b1 ≤ 255 → b2 ≤ 255 → b3 ≤ 255 → ∀ b ∈ writeBytes4 l i b0 b1 b2 b3, b ≤ 255 := by
    intro l i b0 b1 b2 b3 hl h0 h1 h2 h3
    unfold writeBytes4
    split_ifs with hle
    · exact hset _ _ _ (hset _ _ _ (hset _ _ _ (hset _ _ _ hl h0) h1) h2) h3
    · exact hl
  unfold drawRgba
  by_cases h0 : p.a = 0
  · rw [if_pos h0]
    exact ⟨buf, rfl, hbuf, fun _ => rfl⟩
  rw [if_neg h0]
  by_cases h255 : p.a = 255
  · rw [if_pos h255]
    refine ⟨_, rfl, ?_, fun hc => absurd hc h0⟩
    unfold drawRgb TColourR.rgb
    exact hwrite _ _ _ _ _ _ hbuf hr hg hb (by omega)
  rw [if_neg h255]
  cases hread : readBytes3 buf (coordsToIndex x y) with
  | none => exact ⟨buf, rfl, hbuf, fun _ => rfl⟩
  | some triple =>
    rcases triple with ⟨o0, o1, o2⟩
    have hgetD : ∀ i : ℕ, buf.getD i 0 ≤ 255 := by
      intro i
      rw [List.getD_eq_getElem?_getD]
      cases hg2 : buf[i]? with
      | none => simp
      | some v =>
        have hv : v ∈ buf := by
          rcases List.getElem?_eq_some_iff.mp hg2 with ⟨hlt2, hEq⟩
          rw [← hEq]
          exact List.getElem_mem _
        simpa using hbuf v hv
    have hob : o0 ≤ 255 ∧ o1 ≤ 255 ∧ o2 ≤ 255 := by
      unfold readBytes3 at hread
      split_ifs at hread with hle
      · obtain ⟨e1, e2, e3⟩ : buf.getD (coordsToIndex x y * 4) 0 = o0 ∧
            buf.getD (coordsToIndex x y * 4 + 1) 0 = o1 ∧
            buf.getD (coordsToIndex x y * 4 + 2) 0 = o2 := by
          simpa using Option.some.inj hread
        exact ⟨e1 ▸ hgetD _, e2 ▸ hgetD _, e3 ▸ hgetD _⟩
    have hon : p.on ⟨o0, o1, o2, 255⟩ =
        some ⟨u8FracMul p.r p.a + u8FracMul o0 (255 - p.a),
          u8FracMul p.g p.a + u8FracMul o1 (255 - p.a),
          u8FracMul p.b p.a + u8FracMul o2 (255 - p.a), 255⟩ := by
      unfold TColourR.on
      rw [if_neg (by simp [h255]), if_pos rfl]
    dsimp only
    rw [hon]
    refine ⟨_, rfl, ?_, fun hc => absurd hc h0⟩
    unfold drawRgb TColourR.rgb
    exact hwrite _ _ _ _ _ _ hbuf
      (u8FracMul_blend_le _ _ _ hr hob.1 ha)
      (u8FracMul_blend_le _ _ _ hg hob.2.1 ha)
      (u8FracMul_blend_le _ _ _ hb hob.2.2 ha) (by omega)

/-- C10 witness: a concrete blend with intermediate alpha on a small
well-formed buffer. -/
theorem c10_witness :
    ((128 : ℕ) ≤ 255 ∧ ∀ b ∈ [10, 20, 30, 255, 40, 50, 60, 255], b ≤ 255) ∧
      ∃ buf2, drawRgba [10, 20, 30, 255, 40, 50, 60, 255] 0 0 ⟨100, 200, 50, 128⟩ =
        some buf2 ∧ (∀ b ∈ buf2, b ≤ 255) ∧ ((128 : ℕ) = 0 → buf2 = [10, 20, 30, 255, 40, 50, 60, 255]) :=
  ⟨⟨by decide, by decide⟩,
    c10_no_panic [10, 20, 30, 255, 40, 50, 60, 255] 0 0 ⟨100, 200, 50, 128⟩ (by decide)
      (by decide) (by decide) (by decide) (by decide)⟩

/-- The IEEE strict order is irreflexive (even `inf < inf` is false). -/
theorem FVal.flt_irrefl (a : FVal) : a.flt a = false := by
  cases a <;> simp [FVal.flt]

/-- A 2-by-2 grid whose cell (0, 1) is a terminator and whose other cells
are plain air, used by the tie-break counterexample. -/
def tieCtx : Ctx ℕ :=
  ⟨fun x y => if 0 ≤ x ∧ x < 2 ∧ 0 ≤ y ∧ y < 2 then
      (if x = 0 ∧ y = 1 then some 1 else some 0) else none,
    fun m => m == 1, fun m => m == 1, fun _ => false, fun _ => false, false⟩

/-- C6 counterexample: the diagonal ray from `(1/2, 1/2)` along `(1, 1)`
reaches the corner `(1, 1)` with equal x and y crossing times; the claim
says the x-axis side (`Left` for +x travel) is recorded for the cell the
step enters, but the cast enters cell (0, 1) and records the y-axis side
`Up`. -/
theorem c6_counterexample :
    ((rayCast tieCtx 6 ⟨FVal.fin (1 / 2), FVal.fin (1 / 2)⟩ ⟨FVal.fin 1, FVal.fin 1⟩ 8
        false).map (fun c => c.inner.map (fun p => p.ty)) =
      some [CPType.Termination 1 Side.Up]) ∧ Side.Up ≠ Side.Left := by
  constructor
  · norm_num [tieCtx, rayCast, rayCastInner, rayCastLoop, loopBody, rcInit, destReached,
      normKind, ddaStep, postFix, FVal.div, FVal.mul, FVal.add, FVal.sub, FVal.neg, FVal.flt,
      FVal.fge0, FVal.fabs, FVal.isSignPositive, FVal.isSignNegative, FVal.fractIsZero,
      FVal.floorI32, Dir.new, Dir.onF, Dir.onI32, Side.fromVec, Side.alongX, Side.alongY,
      Vec2.add2, Vec2.sub2, Vec2.dot2, Vec2.smul]
  · decide

/-- C6 (amended): on an exact tie between the x and y crossing times the
DDA step takes the y branch — the source guard `time.0 < time.1` is
strict — so the recorded side is the y-axis one (`Up` for +y travel,
`Down` for -y), the y cell advances and the x cell stays; the movement
and rendering casts both run this same step, so the tie-break is
identical for both. -/
theorem c6_amended (dist cur : Vec2) (gx gy : ℤ) (xd yd : Dir)
    (htie : ((Dir.onF xd gx).sub cur.x).div dist.x = ((Dir.onF yd gy).sub cur.y).div dist.y) :
    ddaStep dist cur gx gy xd yd =
      ⟨⟨cur.x.add (((((Dir.onF yd gy).sub cur.y).div dist.y)).mul dist.x), Dir.onF yd gy⟩,
        gx, Dir.onI32 yd gy, Side.alongY dist.y.isSignPositive⟩ := by
  unfold ddaStep
  dsimp only
  rw [htie, if_neg (by rw [FVal.flt_irrefl]; simp)]

/-- C6 amended witness: the concrete tie at `(1/2, 1/2)` with direction
`(1, 1)`. -/
theorem c6_amended_witness :
    (((Dir.onF Dir.Pos 0).sub (FVal.fin (1 / 2))).div (FVal.fin 1) =
      ((Dir.onF Dir.Pos 0).sub (FVal.fin (1 / 2))).div (FVal.fin 1)) ∧
      ddaStep ⟨FVal.fin 1, FVal.fin 1⟩ ⟨FVal.fin (1 / 2), FVal.fin (1 / 2)⟩ 0 0 Dir.Pos
          Dir.Pos =
        ⟨⟨(FVal.fin (1 / 2)).add
            (((((Dir.onF Dir.Pos 0).sub (FVal.fin (1 / 2))).div (FVal.fin 1))).mul
              (FVal.fin 1)), Dir.onF Dir.Pos 0⟩, 0, Dir.onI32 Dir.Pos 0,
          Side.alongY (FVal.fin 1).isSignPositive⟩ :=
  ⟨rfl, c6_amended ⟨FVal.fin 1, FVal.fin 1⟩ ⟨FVal.fin (1 / 2), FVal.fin (1 / 2)⟩ 0 0 Dir.Pos
    Dir.Pos rfl⟩

/-- Subtracting float zero is the identity on every float shape. -/
theorem FVal.sub_zero_right (a : FVal) : a.sub (FVal.fin 0) = a := by
  cases a <;> simp [FVal.sub, FVal.neg, FVal.add]

/-- Membership in the post-loop fix: a point is from the loop result or is
the appended `Destination` anchor. -/
theorem postFix_mem {M : Type} {dest : Vec2} {L : List (CastPoint M)} {q : CastPoint M}
    (h : q ∈ postFix true dest L) : q ∈ L ∨ q = ⟨dest, CPType.Destination⟩ := by
  cases hlv : lastVoidB L with
  | true =>
    rw [postFix_void _ _ hlv] at h
    rcases List.mem_append.mp h with h2 | h2
    · exact Or.inl h2
    · exact Or.inr (List.mem_singleton.mp h2)
  | false =>
    rw [postFix_not_void _ _ hlv] at h
    exact Or.inl h

/-- A shaped list with no `Pass`, `Reflection` or `Termination` points and
no trailing `Void` is a lone `Destination` or a `Void` followed by a
`Destination`. -/
theorem suffB_small {M : Type} {limit : ℕ} {inner : List (CastPoint M)} (hl : 1 ≤ limit)
    (h : suffB limit 0 inner = true) (hnoPR : ∀ q ∈ inner, q.ty.isPRb = false)
    (hnoT : ∀ q ∈ inner, q.ty.isTermb = false) (hnoV : lastVoidB inner = false) :
    (∃ d, inner = [d] ∧ d.ty.isDestb = true) ∨
      (∃ v d, inner = [v, d] ∧ v.ty.isVoidb = true ∧ d.ty.isDestb = true) := by
  match inner with
  | [] =>
    simp only [suffB, decide_eq_true_eq] at h
    omega
  | [p] =>
    simp only [suffB, Bool.or_eq_true, Bool.and_eq_true, decide_eq_true_eq, or_assoc] at h
    rcases h with h | h | h | h
    · exact absurd h (by simp [hnoT p (List.mem_singleton.mpr rfl)])
    · exact Or.inl ⟨p, rfl, h⟩
    · rw [lastVoidB_singleton] at hnoV
      exact absurd h (by simp [hnoV])
    · exact absurd h.1 (by simp [hnoPR p (List.mem_singleton.mpr rfl)])
  | [p, q] =>
    simp only [suffB, Bool.or_eq_true, Bool.and_eq_true, and_assoc] at h
    rcases h with ⟨hp, _⟩ | ⟨hv, hd, _⟩
    · exact absurd hp (by simp [hnoPR p (by simp)])
    · exact Or.inr ⟨p, q, rfl, hv, hd⟩
  | p :: q :: r :: rest =>
    simp only [suffB, Bool.or_eq_true, Bool.and_eq_true, and_assoc] at h
    rcases h with ⟨hp, _⟩ | ⟨_, _, he⟩
    · exact absurd hp (by simp [hnoPR p (by simp)])
    · exact absurd he (by simp [List.isEmpty])

/-- C7: a finite movement cast that returns without encountering any
solid cell (no `Termination` point) yields the exact zero clip vector, so
`World::update` with clipping enabled leaves the player exactly at
`position + displacement`. -/
theorem c7_clip_idempotence (m : GMap) (fuel : ℕ) (p dp : Vec2) (cps : CastPoints ℕ)
    (hpf : p.isFin = true) (hdf : dp.isFin = true)
    (hcast : rayCast m.moveCtx fuel p dp 8 false = some cps)
    (hnoterm : ∀ q ∈ cps.inner, q.ty.isTermb = false) :
    m.moveRayCast fuel p dp = some ⟨FVal.fin 0, FVal.fin 0⟩ ∧
      worldUpdatePos m fuel true p dp = some (p.add2 dp) := by
  have hzero : (p.add2 dp).sub2 (p.add2 dp) = ⟨FVal.fin 0, FVal.fin 0⟩ := by
    rcases p with ⟨px, py⟩
    rcases dp with ⟨dx, dy⟩
    cases px <;> cases py <;> simp [Vec2.isFin] at hpf
    cases dx <;> cases dy <;> simp [Vec2.isFin] at hdf
    simp [Vec2.add2, Vec2.sub2, FVal.add, FVal.sub, FVal.neg]
    constructor <;> ring
  have hstruct : (∃ d, cps.inner = [d] ∧ d.ty.isDestb = true ∧ d.point = p.add2 dp) ∨
      (∃ v d, cps.inner = [v, d] ∧ v.ty.isVoidb = true ∧ d.ty.isDestb = true ∧
        d.point = p.add2 dp) := by
    have hcast2 := hcast
    unfold rayCast rayCastInner at hcast2
    rcases Option.map_eq_some'.mp hcast2 with ⟨l2, h2, hcps⟩
    rcases Option.map_eq_some'.mp h2 with ⟨L, hL, hl2⟩
    subst hl2
    have hinner : cps.inner = postFix true (p.add2 dp) L := by
      rw [← hcps]
      rfl
    have hshape : suffB 8 0 cps.inner = true := by
      rw [hinner]
      exact postFix_suffB _ _ _ _ (loop_shape m.moveCtx rfl _ _ _ _ _ _ _ _ _ _ _ _ _ hL)
    have hnoV : lastVoidB cps.inner = false := by
      rw [hinner]
      exact postFix_lastVoid _ _
    have hmove := loop_move m.moveCtx (fun _ => rfl) _ _ _ _ _ _ _ _ _ _ _ _ _ hL
    have hnoPR : ∀ q ∈ cps.inner, q.ty.isPRb = false := by
      intro q hq
      rw [hinner] at hq
      rcases postFix_mem hq with hmem | heq
      · exact (hmove q hmem).1
      · rw [heq]
        simp [CPType.isPRb]
    have hdp : ∀ q ∈ cps.inner, q.ty.isDestb = true → q.point = p.add2 dp := by
      intro q hq hd
      rw [hinner] at hq
      rcases postFix_mem hq with hmem | heq
      · refine (hmove q hmem).2 ?_
        cases hqt : q.ty <;> simp_all [CPType.isDestb]
      · rw [heq]
    rcases suffB_small (by omega) hshape hnoPR hnoterm hnoV with ⟨d, hin, hd⟩ |
      ⟨v, d, hin, hv, hd⟩
    · exact Or.inl ⟨d, hin, hd, hdp d (by rw [hin]; simp) hd⟩
    · exact Or.inr ⟨v, d, hin, hv, hd, hdp d (by rw [hin]; simp) hd⟩
  have hclip : cps.clipF = some (⟨FVal.fin 0, FVal.fin 0⟩, none) := by
    have htarget : cps.target = some (p.add2 dp) := by
      unfold rayCast rayCastInner at hcast
      rcases Option.map_eq_some'.mp hcast with ⟨l2, h2, hcps⟩
      rw [← hcps]
      rfl
    have hscan : clipScan cps.inner ⟨FVal.nan, FVal.nan⟩ none = (p.add2 dp, none) := by
      rcases hstruct with ⟨d, hin, hd, hpt⟩ | ⟨v, d, hin, hv, hd, hpt⟩
      · have hdt : d.ty = CPType.Destination := by
          cases hqt : d.ty <;> simp_all [CPType.isDestb]
        rw [hin]
        unfold clipScan
        rw [hdt]
        dsimp only
        unfold clipScan
        rw [hpt]
      · have hdt : d.ty = CPType.Destination := by
          cases hqt : d.ty <;> simp_all [CPType.isDestb]
        have hvt : ∃ s, v.ty = CPType.Void s := by
          cases hqt : v.ty <;> simp_all [CPType.isVoidb]
        rcases hvt with ⟨s, hvt⟩
        rw [hin]
        unfold clipScan
        rw [hvt]
        dsimp only
        unfold clipScan
        rw [hdt]
        dsimp only
        unfold clipScan
        rw [hpt]
    unfold CastPoints.clipF
    rw [htarget]
    dsimp only
    rw [hscan]
    dsimp only
    rw [hzero]
  have hmrc : m.moveRayCast fuel p dp = some ⟨FVal.fin 0, FVal.fin 0⟩ := by
    unfold GMap.moveRayCast
    rw [hcast]
    dsimp only
    rw [hclip]
  refine ⟨hmrc, ?_⟩
  unfold worldUpdatePos
  rw [if_pos rfl, hmrc]
  simp only [Option.map_some']
  rw [show (p.add2 dp).sub2 ⟨FVal.fin 0, FVal.fin 0⟩ = p.add2 dp from by
    rcases hpd : p.add2 dp with ⟨ax, ay⟩
    simp [Vec2.sub2, FVal.sub_zero_right]]

/-- A one-cell all-air map. -/
def mapAir : GMap := ⟨[0], 1, []⟩

/-- C7 witness: a concrete short displacement inside the all-air cell
reaches its destination and is not clipped. -/
theorem c7_witness :
    (rayCast mapAir.moveCtx 6 ⟨FVal.fin (1 / 2), FVal.fin (1 / 2)⟩
        ⟨FVal.fin (1 / 4), FVal.fin 0⟩ 8 false =
      some ⟨[⟨⟨FVal.fin (3 / 4), FVal.fin (1 / 2)⟩, CPType.Destination⟩],
        ⟨FVal.fin (1 / 2), FVal.fin (1 / 2)⟩, some ⟨FVal.fin (3 / 4), FVal.fin (1 / 2)⟩⟩) ∧
      (mapAir.moveRayCast 6 ⟨FVal.fin (1 / 2), FVal.fin (1 / 2)⟩
          ⟨FVal.fin (1 / 4), FVal.fin 0⟩ = some ⟨FVal.fin 0, FVal.fin 0⟩ ∧
        worldUpdatePos mapAir 6 true ⟨FVal.fin (1 / 2), FVal.fin (1 / 2)⟩
          ⟨FVal.fin (1 / 4), FVal.fin 0⟩ =
          some (Vec2.add2 ⟨FVal.fin (1 / 2), FVal.fin (1 / 2)⟩
            ⟨FVal.fin (1 / 4), FVal.fin 0⟩)) := by
  have hev : rayCast mapAir.moveCtx 6 ⟨FVal.fin (1 / 2), FVal.fin (1 / 2)⟩
      ⟨FVal.fin (1 / 4), FVal.fin 0⟩ 8 false =
      some ⟨[⟨⟨FVal.fin (3 / 4), FVal.fin (1 / 2)⟩, CPType.Destination⟩],
        ⟨FVal.fin (1 / 2), FVal.fin (1 / 2)⟩, some ⟨FVal.fin (3 / 4), FVal.fin (1 / 2)⟩⟩ := by
    norm_num [mapAir, rayCast, rayCastInner, rayCastLoop, loopBody, rcInit, destReached,
      normKind, ddaStep, postFix, GMap.moveCtx, GMap.get, GMap.matProps, matIsAir, toU64,
      checkedMul, checkedAdd, U64, FVal.div, FVal.mul, FVal.add, FVal.sub, FVal.neg, FVal.flt,
      FVal.fge0, FVal.fabs, FVal.isSignPositive, FVal.isSignNegative, FVal.fractIsZero,
      FVal.floorI32, Dir.new, Dir.onF, Dir.onI32, Side.fromVec, Side.alongX, Side.alongY,
      Vec2.add2, Vec2.sub2, Vec2.dot2, Vec2.smul]
  exact ⟨hev, c7_clip_idempotence mapAir 6 _ _ _ rfl rfl hev (by decide)⟩

/-- Dividing a positive finite value by float zero gives plus infinity. -/
theorem FVal.div_pos_zero (a : ℚ) (ha : 0 < a) :
    (FVal.fin a).div (FVal.fin 0) = FVal.pinf := by
  simp [FVal.div, ha, not_lt.mpr ha.le]

/-- Any finite value is below plus infinity. -/
theorem FVal.flt_fin_pinf (a : ℚ) : (FVal.fin a).flt FVal.pinf = true := rfl

/-- On an infinite cast the inner wrapper is the raw loop (the post-loop
fix is the identity). -/
theorem rayCastInner_infinite {M : Type} (C : Ctx M) (hf : C.finite = false) (f : ℕ)
    (fromP dist : Vec2) (limit : ℕ) (skip : Bool) :
    rayCastInner C f fromP dist limit skip =
      rayCastLoop C f (fromP.add2 dist) dist limit fromP (rcInit fromP dist).gx
        (rcInit fromP dist).gy (rcInit fromP dist).xdir (rcInit fromP dist).ydir
        (rcInit fromP dist).side (!skip) 0 := by
  unfold rayCastInner
  rw [hf]
  dsimp only
  cases h : rayCastLoop C f (fromP.add2 dist) dist limit fromP (rcInit fromP dist).gx
      (rcInit fromP dist).gy (rcInit fromP dist).xdir (rcInit fromP dist).ydir
      (rcInit fromP dist).side (!skip) 0 with
  | none => rfl
  | some L => simp [postFix_false]

/-- The DDA step of a strictly +x axis-aligned ray inside row `gy` of the
grid: the x time is finite, the y time is plus infinity, so the step moves
to the next x grid line keeping the y coordinate, and records `Left`. -/
theorem ddaStep_axis_x (d x oy : ℚ) (gx gy : ℤ) (hd : 0 < d) (hoylt : oy < (gy : ℚ) + 1) :
    ddaStep ⟨FVal.fin d, FVal.fin 0⟩ ⟨FVal.fin x, FVal.fin oy⟩ gx gy Dir.Pos Dir.Pos =
      ⟨⟨FVal.fin ((gx : ℚ) + 1), FVal.fin oy⟩, gx + 1, gy, Side.Left⟩ := by
  unfold ddaStep
  dsimp only [Dir.onF]
  have hsub : (FVal.fin ((gy : ℚ) + 1)).sub (FVal.fin oy) = FVal.fin ((gy : ℚ) + 1 + -oy) := rfl
  have hty : ((FVal.fin ((gy : ℚ) + 1)).sub (FVal.fin oy)).div (FVal.fin 0) = FVal.pinf := by
    rw [hsub]
    exact FVal.div_pos_zero _ (by linarith)
  have htx : ((FVal.fin ((gx : ℚ) + 1)).sub (FVal.fin x)).div (FVal.fin d) =
      FVal.fin (((gx : ℚ) + 1 + -x) / d) := by
    simp [FVal.sub, FVal.neg, FVal.add, FVal.div, ne_of_gt hd]
  rw [hty, htx, if_pos (FVal.flt_fin_pinf _)]
  have hy : (FVal.fin oy).add ((FVal.fin (((gx : ℚ) + 1 + -x) / d)).mul (FVal.fin 0)) =
      FVal.fin oy := by
    simp [FVal.mul, FVal.add]
  rw [hy]
  have hside : Side.alongX (FVal.fin d).isSignPositive = Side.Left := by
    simp [Side.alongX, FVal.isSignPositive, FVal.isSignNegative, not_lt.mpr hd.le]
  rw [hside]
  rfl

/-- The axis-aligned reflection loop lemma: marching in +x through
non-node cells of row `gy` from a cell before `k` reaches the reflective
cell `(k, gy)`, emits its `Reflection` point at `(k, oy)` with side
`Left`, and splices exactly the recursive cast from `(k, oy)` along
`(-d, 0)` with the remaining budget. -/
theorem c5_loop {M : Type} (C : Ctx M) (hf : C.finite = false) (d oy : ℚ) (gy k gx0 : ℤ)
    (mr : M) (limit : ℕ) (hd : 0 < d) (hoy : 0 ≤ oy) (hoylt : oy < (gy : ℚ) + 1)
    (hlim : 1 ≤ limit) (hgx0 : 0 ≤ gx0)
    (hair : ∀ j : ℤ, gx0 ≤ j → j < k → ∃ mm, C.g j gy = some mm ∧ C.isNode mm = false)
    (hreflg : C.g k gy = some mr) (hrnode : C.isNode mr = true)
    (hrterm : C.isTerm mr = false) (hrrefl : C.isRefl mr = true) :
    ∀ (fuel : ℕ) (dest : Vec2) (x : ℚ) (gx : ℤ) (dc : Bool) (L : List (CastPoint M)),
      0 ≤ x → gx0 ≤ gx → (gx < k ∨ (gx = k ∧ x = (k : ℚ) ∧ dc = true)) →
      rayCastLoop C fuel dest ⟨FVal.fin d, FVal.fin 0⟩ limit ⟨FVal.fin x, FVal.fin oy⟩ gx gy
        Dir.Pos Dir.Pos Side.Left dc 0 = some L →
      ∃ f2 sub, rayCastInner C f2 ⟨FVal.fin (k : ℚ), FVal.fin oy⟩
          ⟨FVal.fin (-d), FVal.fin 0⟩ (limit - 1) false = some sub ∧
        L = ⟨⟨FVal.fin (k : ℚ), FVal.fin oy⟩, CPType.Reflection mr Side.Left⟩ :: sub := by
  intro fuel
  induction fuel with
  | zero =>
    intro dest x gx dc L hx hgx hinv h
    exact absurd h (by simp [rayCastLoop])
  | succ f ih =>
    intro dest x gx dc L hx hgx hinv h
    have hxflt : ((FVal.fin x).flt (FVal.fin 0) || (FVal.fin oy).flt (FVal.fin 0)) = false := by
      simp [FVal.flt, not_lt.mpr hx, not_lt.mpr hoy]
    rcases hinv with hlt | ⟨hEq, hxk, hdc⟩
    · -- before the reflective cell: this iteration is a plain step
      have hb : loopBody C dest ⟨FVal.fin d, FVal.fin 0⟩ limit ⟨FVal.fin x, FVal.fin oy⟩ gx gy
          Dir.Pos Dir.Pos Side.Left dc 0 =
          StepOut.go [] ⟨FVal.fin ((gx : ℚ) + 1), FVal.fin oy⟩ (gx + 1) gy Side.Left 0 := by
        unfold loopBody
        rw [if_neg (by omega), hf]
        rw [if_neg (by simp)]
        cases dc with
        | false =>
          rw [if_neg (by simp)]
          rw [ddaStep_axis_x d x oy gx gy hd hoylt]
        | true =>
          rw [if_pos rfl, if_neg (by simp [hxflt])]
          rcases hair gx hgx hlt with ⟨mm, hgm, hnm⟩
          rw [hgm]
          dsimp only
          rw [if_neg (by simp [hnm])]
          rw [ddaStep_axis_x d x oy gx gy hd hoylt]
      rw [rayCastLoop, hb] at h
      dsimp only at h
      rcases Option.map_eq_some'.mp h with ⟨rest, hrest, hL⟩
      rw [List.nil_append] at hL
      subst hL
      have hx1 : (0 : ℚ) ≤ (gx : ℚ) + 1 := by
        have h0 : (0 : ℤ) ≤ gx + 1 := by omega
        exact_mod_cast h0
      have hdisj : gx + 1 < k ∨ (gx + 1 = k ∧ ((gx : ℚ) + 1 = (k : ℚ)) ∧ (true : Bool) = true) := by
        rcases lt_or_le (gx + 1) k with h2 | h2
        · exact Or.inl h2
        · have hgxk : gx + 1 = k := by omega
          refine Or.inr ⟨hgxk, ?_, rfl⟩
          exact_mod_cast hgxk
      exact ih dest ((gx : ℚ) + 1) (gx + 1) true rest hx1 (by omega) hdisj hrest
    · -- at the reflective cell
      subst hdc
      have hxg : x = (gx : ℚ) := by rw [hxk, hEq]
      subst hxg
      rw [← hEq]
      have hg : C.g gx gy = some mr := by rw [hEq]; exact hreflg
      have hb : loopBody C dest ⟨FVal.fin d, FVal.fin 0⟩ limit
          ⟨FVal.fin (gx : ℚ), FVal.fin oy⟩ gx gy Dir.Pos Dir.Pos Side.Left true 0 =
          StepOut.refl ⟨⟨FVal.fin (gx : ℚ), FVal.fin oy⟩, CPType.Reflection mr Side.Left⟩
            ⟨FVal.fin (-d), FVal.fin 0⟩ (limit - 1) := by
        unfold loopBody
        rw [if_neg (by omega), hf]
        rw [if_neg (by simp)]
        rw [if_pos rfl, if_neg (by simp [hxflt])]
        rw [hg]
        dsimp only
        rw [if_pos hrnode, if_neg (by simp [hrterm]), if_pos hrrefl]
        rfl
      rw [rayCastLoop, hb] at h
      dsimp only at h
      rcases Option.map_eq_some'.mp h with ⟨sub, hsub, hL⟩
      refine ⟨f, sub, ?_, ?_⟩
      · rw [rayCastInner_infinite C hf]
        exact hsub
      · rw [← hL, hf, postFix_false]

/-- C5: For a ray cast aimed strictly +x from inside the grid's positive
quadrant at a reflective cell `(k, ⌊oy⌋)` across non-node cells, the
returned list is a `Reflection` point with side `Left` at the hit point
`(k, oy)` followed exactly by the points of the recursive sub-cast from
that hit point with direction `(-d, 0)` — x-component sign flipped,
y-component unchanged — under the remaining budget; and the sub-cast's
initial cell is `k - 1`, so it does not re-test the reflective cell. -/
theorem c5_reflection {M : Type} (C : Ctx M) (hf : C.finite = false)
    (fuel limit : ℕ) (skip : Bool) (ox oy d : ℚ) (k : ℤ) (mr : M) (cps : CastPoints M)
    (hd : 0 < d) (hox : 0 ≤ ox) (hoy : 0 ≤ oy) (hox31 : ox < 2 ^ 31) (hoy31 : oy < 2 ^ 31)
    (hk : ⌊ox⌋ < k) (hk31 : k ≤ 2 ^ 31 - 1) (hlim : 1 ≤ limit)
    (hair : ∀ j : ℤ, ⌊ox⌋ ≤ j → j < k → ∃ mm, C.g j ⌊oy⌋ = some mm ∧ C.isNode mm = false)
    (hreflg : C.g k ⌊oy⌋ = some mr) (hrnode : C.isNode mr = true)
    (hrterm : C.isTerm mr = false) (hrrefl : C.isRefl mr = true)
    (h : rayCast C fuel ⟨FVal.fin ox, FVal.fin oy⟩ ⟨FVal.fin d, FVal.fin 0⟩ limit skip =
      some cps) :
    ∃ f2 sub, rayCastInner C f2 ⟨FVal.fin (k : ℚ), FVal.fin oy⟩ ⟨FVal.fin (-d), FVal.fin 0⟩
        (limit - 1) false = some sub ∧
      cps.inner = ⟨⟨FVal.fin (k : ℚ), FVal.fin oy⟩, CPType.Reflection mr Side.Left⟩ :: sub ∧
      (rcInit ⟨FVal.fin (k : ℚ), FVal.fin oy⟩ ⟨FVal.fin (-d), FVal.fin 0⟩).gx = k - 1 := by
  have hfl0 : (0 : ℤ) ≤ ⌊ox⌋ := Int.floor_nonneg.mpr hox
  have hflx : (FVal.fin ox).floorI32 = ⌊ox⌋ := by
    have h2 : ⌊ox⌋ < 2 ^ 31 := by
      rw [Int.floor_lt]
      exact_mod_cast hox31
    simp only [FVal.floorI32]
    omega
  have hfly : (FVal.fin oy).floorI32 = ⌊oy⌋ := by
    have h1 : (0 : ℤ) ≤ ⌊oy⌋ := Int.floor_nonneg.mpr hoy
    have h2 : ⌊oy⌋ < 2 ^ 31 := by
      rw [Int.floor_lt]
      exact_mod_cast hoy31
    simp only [FVal.floorI32]
    omega
  have hdirp : Dir.new (FVal.fin d) = Dir.Pos := by
    simp [Dir.new, FVal.isSignNegative, not_lt.mpr hd.le]
  have hdir0 : Dir.new (FVal.fin 0) = Dir.Pos := by
    simp [Dir.new, FVal.isSignNegative]
  have hside : Side.fromVec ⟨FVal.fin d, FVal.fin 0⟩ = Side.Left := by
    simp [Side.fromVec, FVal.fabs, FVal.flt, Side.alongX, FVal.isSignPositive,
      FVal.isSignNegative, abs_of_pos hd, hd, not_lt.mpr hd.le]
  have hinit : rcInit ⟨FVal.fin ox, FVal.fin oy⟩ ⟨FVal.fin d, FVal.fin 0⟩ =
      ⟨⌊ox⌋, ⌊oy⌋, Dir.Pos, Dir.Pos, Side.Left⟩ := by
    unfold rcInit
    dsimp only
    rw [hdirp, hdir0, hflx, hfly, hside]
    simp
  have hgoal3 : (rcInit ⟨FVal.fin (k : ℚ), FVal.fin oy⟩ ⟨FVal.fin (-d), FVal.fin 0⟩).gx =
      k - 1 := by
    have hkfl : (FVal.fin (k : ℚ)).floorI32 = k := by
      simp only [FVal.floorI32, Int.floor_intCast]
      omega
    have hneg : Dir.new (FVal.fin (-d)) = Dir.Neg := by
      simp [Dir.new, FVal.isSignNegative, hd]
    unfold rcInit
    dsimp only
    rw [hkfl, hneg]
    simp [FVal.fractIsZero]
  unfold rayCast at h
  rcases Option.map_eq_some'.mp h with ⟨inner, hinner, hcps⟩
  rw [rayCastInner_infinite C hf, hinit] at hinner
  dsimp only at hinner
  rcases c5_loop C hf d oy ⌊oy⌋ k ⌊ox⌋ mr limit hd hoy (Int.lt_floor_add_one oy) hlim hfl0
      hair hreflg hrnode hrterm hrrefl fuel _ ox ⌊ox⌋ (!skip) inner hox le_rfl
      (Or.inl hk) hinner with ⟨f2, sub, hsub, hL⟩
  exact ⟨f2, sub, hsub, by rw [← hcps]; exact hL, hgoal3⟩

/-- Witness grid for the reflection claim: row `y = 0` has air (material 0)
at `x = 0, 1` and a reflective node (material 1) at `x = 2`; infinite
casts. -/
def c5Ctx : Ctx ℕ :=
  ⟨fun x y => if y = 0 ∧ 0 ≤ x ∧ x < 2 then some 0 else if y = 0 ∧ x = 2 then some 1 else none,
   fun m => decide (m = 1), fun _ => false, fun m => decide (m = 1), fun _ => false, false⟩

theorem c5_witness :
    ∃ f2 sub, rayCastInner c5Ctx f2 ⟨FVal.fin ((2 : ℤ) : ℚ), FVal.fin (1 / 2)⟩
        ⟨FVal.fin (-1), FVal.fin 0⟩ (8 - 1) false = some sub ∧
      (⟨[⟨⟨FVal.fin 2, FVal.fin (1 / 2)⟩, CPType.Reflection 1 Side.Left⟩,
          ⟨⟨FVal.fin 0, FVal.fin (1 / 2)⟩, CPType.Void Side.Right⟩],
        ⟨FVal.fin (1 / 2), FVal.fin (1 / 2)⟩, none⟩ : CastPoints ℕ).inner =
        ⟨⟨FVal.fin ((2 : ℤ) : ℚ), FVal.fin (1 / 2)⟩, CPType.Reflection 1 Side.Left⟩ :: sub ∧
      (rcInit ⟨FVal.fin ((2 : ℤ) : ℚ), FVal.fin (1 / 2)⟩ ⟨FVal.fin (-1), FVal.fin 0⟩).gx =
        2 - 1 := by
  have hfl : ⌊(1 / 2 : ℚ)⌋ = 0 := by norm_num
  have hair : ∀ j : ℤ, ⌊(1 / 2 : ℚ)⌋ ≤ j → j < 2 →
      ∃ mm, c5Ctx.g j ⌊(1 / 2 : ℚ)⌋ = some mm ∧ c5Ctx.isNode mm = false := by
    intro j h1 h2
    rw [hfl] at h1
    refine ⟨0, ?_, rfl⟩
    rw [hfl]
    show (if (0 : ℤ) = 0 ∧ 0 ≤ j ∧ j < 2 then some 0
      else if (0 : ℤ) = 0 ∧ j = 2 then some 1 else none) = some 0
    rw [if_pos ⟨rfl, h1, h2⟩]
  have hreflg : c5Ctx.g 2 ⌊(1 / 2 : ℚ)⌋ = some 1 := by
    rw [hfl]
    show (if (0 : ℤ) = 0 ∧ (0 : ℤ) ≤ 2 ∧ (2 : ℤ) < 2 then some 0
      else if (0 : ℤ) = 0 ∧ (2 : ℤ) = 2 then some 1 else none) = some 1
    rw [if_neg (by omega), if_pos ⟨rfl, rfl⟩]
  have h : rayCast c5Ctx 10 ⟨FVal.fin (1 / 2), FVal.fin (1 / 2)⟩ ⟨FVal.fin 1, FVal.fin 0⟩
      8 false = some ⟨[⟨⟨FVal.fin 2, FVal.fin (1 / 2)⟩, CPType.Reflection 1 Side.Left⟩,
        ⟨⟨FVal.fin 0, FVal.fin (1 / 2)⟩, CPType.Void Side.Right⟩],
      ⟨FVal.fin (1 / 2), FVal.fin (1 / 2)⟩, none⟩ := by
    norm_num [rayCast, rayCastInner, rayCastLoop, loopBody, rcInit, destReached, normKind,
      ddaStep, postFix, mirrorDist, c5Ctx, FVal.div, FVal.mul, FVal.add, FVal.sub, FVal.neg,
      FVal.flt, FVal.fge0, FVal.fabs, FVal.isSignPositive, FVal.isSignNegative,
      FVal.fractIsZero, FVal.floorI32, FVal.ffract, ratTrunc, Dir.new, Dir.onF, Dir.onI32,
      Side.fromVec, Side.alongX, Side.alongY, Vec2.add2, Vec2.sub2, Vec2.dot2, Vec2.smul]
  exact c5_reflection c5Ctx rfl 10 8 false (1 / 2) (1 / 2) 1 2 1 _ (by norm_num) (by norm_num)
    (by norm_num) (by norm_num) (by norm_num) (by rw [hfl]; norm_num) (by norm_num)
    (by norm_num) hair hreflg rfl rfl rfl h

/-- The number of cells left before the coordinate passes the grid's
bounding half-width `B` in the travel direction of its axis. -/
def escDir (B : ℤ) : Dir → ℤ → ℕ
  | Dir.Pos, g => (B - g).toNat
  | Dir.Neg, g => (B + g).toNat

/-- Every DDA step moves exactly one of the two cell coordinates one cell
along its fixed direction, whatever the float times evaluate to. -/
theorem ddaStep_move (dist cur : Vec2) (gx gy : ℤ) (xd yd : Dir) :
    ((ddaStep dist cur gx gy xd yd).gx = xd.onI32 gx ∧
        (ddaStep dist cur gx gy xd yd).gy = gy) ∨
      ((ddaStep dist cur gx gy xd yd).gx = gx ∧
        (ddaStep dist cur gx gy xd yd).gy = yd.onI32 gy) := by
  unfold ddaStep
  dsimp only
  split_ifs <;> simp

/-- Moving one cell along the direction strictly decreases the escape
measure while the coordinate is still inside the box. -/
theorem escDir_onI32 (B : ℤ) (d : Dir) (g : ℤ) (h : |g| < B) :
    escDir B d (d.onI32 g) < escDir B d g := by
  rw [abs_lt] at h
  cases d <;> simp only [escDir, Dir.onI32] <;> omega

/-- Moving one cell along the direction never increases the escape
measure. -/
theorem escDir_onI32_le (B : ℤ) (d : Dir) (g : ℤ) :
    escDir B d (d.onI32 g) ≤ escDir B d g := by
  cases d <;> simp only [escDir, Dir.onI32] <;> omega

/-- Totality of one loop invocation with checks active, by strong
induction on the escape measure, given totality of every invocation with a
strictly smaller budget (for the reflection hand-over). -/
theorem loop_total_aux {M : Type} (C : Ctx M) (B : ℤ)
    (hB : ∀ a b : ℤ, ∀ m : M, C.g a b = some m → |a| < B ∧ |b| < B) (limit : ℕ)
    (IH : ∀ l', l' < limit → ∀ (dest dist cur : Vec2) (gx gy : ℤ) (xd yd : Dir)
      (side : Side) (dc : Bool) (len : ℕ),
      ∃ fuel L, rayCastLoop C fuel dest dist l' cur gx gy xd yd side dc len = some L) :
    ∀ (n : ℕ) (dest dist cur : Vec2) (gx gy : ℤ) (xd yd : Dir) (side : Side) (len : ℕ),
      escDir B xd gx + escDir B yd gy ≤ n →
      ∃ fuel L, rayCastLoop C fuel dest dist limit cur gx gy xd yd side true len = some L := by
  intro n
  induction n using Nat.strong_induction_on with
  | _ n ih =>
    intro dest dist cur gx gy xd yd side len hm
    rcases loopBody_cases C dest dist limit cur gx gy xd yd side true len with
      ⟨hb, _⟩ | ⟨_, _, hb⟩ | ⟨_, _, hb⟩ | ⟨_, _, m, _, _, _, hb⟩ |
      ⟨hlt, _, m, hg, hn, ht, hr, hb⟩ | ⟨hlt, _, m, hg, hn, ht, hr, hp, hb⟩ | ⟨hlt, hdc2, hb⟩
    · exact ⟨0 + 1, [], by rw [rayCastLoop, hb]⟩
    · exact ⟨0 + 1, _, by rw [rayCastLoop, hb]⟩
    · exact ⟨0 + 1, _, by rw [rayCastLoop, hb]⟩
    · exact ⟨0 + 1, _, by rw [rayCastLoop, hb]⟩
    · obtain ⟨f2, L2, hf2⟩ := IH (limit - (len + 1)) (by omega)
        (cur.add2 (mirrorDist (if C.finite then dest.sub2 cur else dist) side))
        (mirrorDist (if C.finite then dest.sub2 cur else dist) side) cur
        (rcInit cur (mirrorDist (if C.finite then dest.sub2 cur else dist) side)).gx
        (rcInit cur (mirrorDist (if C.finite then dest.sub2 cur else dist) side)).gy
        (rcInit cur (mirrorDist (if C.finite then dest.sub2 cur else dist) side)).xdir
        (rcInit cur (mirrorDist (if C.finite then dest.sub2 cur else dist) side)).ydir
        (rcInit cur (mirrorDist (if C.finite then dest.sub2 cur else dist) side)).side true 0
      refine ⟨f2 + 1, ⟨cur, CPType.Reflection m side⟩ :: postFix C.finite
        (cur.add2 (mirrorDist (if C.finite then dest.sub2 cur else dist) side)) L2, ?_⟩
      rw [rayCastLoop, hb]
      dsimp only
      rw [hf2]
      rfl
    · obtain ⟨hax, hay⟩ := hB gx gy m hg
      have hlt2 : escDir B xd (ddaStep dist cur gx gy xd yd).gx +
          escDir B yd (ddaStep dist cur gx gy xd yd).gy < n := by
        rcases ddaStep_move dist cur gx gy xd yd with ⟨hmx, hmy⟩ | ⟨hmx, hmy⟩
        · rw [hmx, hmy]
          have := escDir_onI32 B xd gx hax
          omega
        · rw [hmx, hmy]
          have := escDir_onI32 B yd gy hay
          omega
      obtain ⟨f2, L2, hf2⟩ := ih _ hlt2 dest dist (ddaStep dist cur gx gy xd yd).cur
        (ddaStep dist cur gx gy xd yd).gx (ddaStep dist cur gx gy xd yd).gy xd yd
        (ddaStep dist cur gx gy xd yd).side (len + 1) le_rfl
      refine ⟨f2 + 1, ⟨cur, CPType.Pass m side⟩ :: L2, ?_⟩
      rw [rayCastLoop, hb]
      dsimp only
      rw [hf2]
      rfl
    · obtain ⟨m, hg⟩ := hdc2 rfl
      obtain ⟨hax, hay⟩ := hB gx gy m hg
      have hlt2 : escDir B xd (ddaStep dist cur gx gy xd yd).gx +
          escDir B yd (ddaStep dist cur gx gy xd yd).gy < n := by
        rcases ddaStep_move dist cur gx gy xd yd with ⟨hmx, hmy⟩ | ⟨hmx, hmy⟩
        · rw [hmx, hmy]
          have := escDir_onI32 B xd gx hax
          omega
        · rw [hmx, hmy]
          have := escDir_onI32 B yd gy hay
          omega
      obtain ⟨f2, L2, hf2⟩ := ih _ hlt2 dest dist (ddaStep dist cur gx gy xd yd).cur
        (ddaStep dist cur gx gy xd yd).gx (ddaStep dist cur gx gy xd yd).gy xd yd
        (ddaStep dist cur gx gy xd yd).side len le_rfl
      refine ⟨f2 + 1, L2, ?_⟩
      rw [rayCastLoop, hb]
      dsimp only
      rw [hf2]
      rfl

/-- Totality of one loop invocation from any starting flag: a skipped
first check performs one unchecked step and lands in the checked regime. -/
theorem loop_total_aux2 {M : Type} (C : Ctx M) (B : ℤ)
    (hB : ∀ a b : ℤ, ∀ m : M, C.g a b = some m → |a| < B ∧ |b| < B) (limit : ℕ)
    (IH : ∀ l', l' < limit → ∀ (dest dist cur : Vec2) (gx gy : ℤ) (xd yd : Dir)
      (side : Side) (dc : Bool) (len : ℕ),
      ∃ fuel L, rayCastLoop C fuel dest dist l' cur gx gy xd yd side dc len = some L) :
    ∀ (dest dist cur : Vec2) (gx gy : ℤ) (xd yd : Dir) (side : Side) (dc : Bool) (len : ℕ),
      ∃ fuel L, rayCastLoop C fuel dest dist limit cur gx gy xd yd side dc len = some L := by
  intro dest dist cur gx gy xd yd side dc len
  cases dc with
  | true => exact loop_total_aux C B hB limit IH _ dest dist cur gx gy xd yd side len le_rfl
  | false =>
    rcases loopBody_cases C dest dist limit cur gx gy xd yd side false len with
      ⟨hb, _⟩ | ⟨_, _, hb⟩ | ⟨_, hdc, _⟩ | ⟨_, hdc, _⟩ | ⟨_, hdc, _⟩ |
      ⟨_, hdc, _, _, _, _, _, _, _⟩ | ⟨hlt, _, hb⟩
    · exact ⟨0 + 1, [], by rw [rayCastLoop, hb]⟩
    · exact ⟨0 + 1, _, by rw [rayCastLoop, hb]⟩
    · exact absurd hdc (by simp)
    · exact absurd hdc (by simp)
    · exact absurd hdc (by simp)
    · exact absurd hdc (by simp)
    · obtain ⟨f2, L2, hf2⟩ := loop_total_aux C B hB limit IH _ dest dist
        (ddaStep dist cur gx gy xd yd).cur (ddaStep dist cur gx gy xd yd).gx
        (ddaStep dist cur gx gy xd yd).gy xd yd (ddaStep dist cur gx gy xd yd).side len le_rfl
      refine ⟨f2 + 1, L2, ?_⟩
      rw [rayCastLoop, hb]
      dsimp only
      rw [hf2]
      rfl

/-- Totality of the loop for every budget, by strong induction on the
budget (a reflection always hands over a strictly smaller budget). -/
theorem loop_total {M : Type} (C : Ctx M) (B : ℤ)
    (hB : ∀ a b : ℤ, ∀ m : M, C.g a b = some m → |a| < B ∧ |b| < B) :
    ∀ (limit : ℕ) (dest dist cur : Vec2) (gx gy : ℤ) (xd yd : Dir) (side : Side)
      (dc : Bool) (len : ℕ),
      ∃ fuel L, rayCastLoop C fuel dest dist limit cur gx gy xd yd side dc len = some L := by
  intro limit
  induction limit using Nat.strong_induction_on with
  | _ limit IH => exact loop_total_aux2 C B hB limit IH

/-- C4: over a finite grid (all stored cells within a bounding box of
half-width `B`), every cast terminates — for every origin and direction
(any float shapes, including zero and axis-aligned components), finite
flag, node budget, and predicate set, some finite fuel makes `ray_cast`
return — and the result either stays within the node budget or ends in a
`Destination` point. -/
theorem c4_termination {M : Type} (C : Ctx M) (B : ℤ)
    (hB : ∀ a b : ℤ, ∀ m : M, C.g a b = some m → |a| < B ∧ |b| < B)
    (fromP dist : Vec2) (limit : ℕ) (skip : Bool) :
    ∃ fuel cps, rayCast C fuel fromP dist limit skip = some cps ∧
      (cps.inner.length ≤ limit ∨ lastDestB cps.inner = true) := by
  obtain ⟨fuel, L, hL⟩ := loop_total C B hB limit (fromP.add2 dist) dist fromP
    (rcInit fromP dist).gx (rcInit fromP dist).gy (rcInit fromP dist).xdir
    (rcInit fromP dist).ydir (rcInit fromP dist).side (!skip) 0
  refine ⟨fuel, ⟨postFix C.finite (fromP.add2 dist) L, fromP,
    if C.finite then some (fromP.add2 dist) else none⟩, ?_, ?_⟩
  · unfold rayCast rayCastInner
    dsimp only
    rw [hL]
    rfl
  · obtain ⟨h1, h2, h3, h4⟩ := loop_len C fuel (fromP.add2 dist) dist limit fromP
      (rcInit fromP dist).gx (rcInit fromP dist).gy (rcInit fromP dist).xdir
      (rcInit fromP dist).ydir (rcInit fromP dist).side (!skip) 0 L hL (Nat.zero_le _)
    dsimp only
    cases hcf : C.finite with
    | false =>
      rw [postFix_false]
      exact Or.inl (by have := h3 hcf; omega)
    | true =>
      cases hv : lastVoidB L with
      | true =>
        rw [postFix_void _ _ hv, lastDestB_concat]
        exact Or.inr rfl
      | false =>
        rw [postFix_not_void _ _ hv]
        cases hdl : lastDestB L with
        | true => exact Or.inr rfl
        | false => exact Or.inl (by have := h4 hdl; omega)

/-- The bounding box of the witness grid. -/
theorem c5Ctx_bounded : ∀ a b : ℤ, ∀ m : ℕ, c5Ctx.g a b = some m → |a| < 3 ∧ |b| < 3 := by
  intro a b m h
  have h2 : (if b = 0 ∧ 0 ≤ a ∧ a < 2 then some 0
      else if b = 0 ∧ a = 2 then some 1 else none) = some m := h
  split_ifs at h2 with h1 h2b
  · exact ⟨by rw [abs_lt]; omega, by rw [abs_lt]; omega⟩
  · exact ⟨by rw [abs_lt]; omega, by rw [abs_lt]; omega⟩

theorem c4_witness :
    ∃ fuel cps, rayCast c5Ctx fuel ⟨FVal.fin (1 / 2), FVal.fin (1 / 2)⟩
        ⟨FVal.fin 1, FVal.fin 0⟩ 8 false = some cps ∧
      (cps.inner.length ≤ 8 ∨ lastDestB cps.inner = true) :=
  c4_termination c5Ctx 3 c5Ctx_bounded ⟨FVal.fin (1 / 2), FVal.fin (1 / 2)⟩
    ⟨FVal.fin 1, FVal.fin 0⟩ 8 false
